import Mathlib

/-!
Verification of the Lake-Tisza landscape-metric engine
(`tisza_to_tajmetria`): a shallow embedding of the patch-extraction
(flood-fill) scan and of the metric computations, with theorems checking
the specification's claims against the code.

Conventions of the embedding:
* raster cells are addressed as `(row, col) : ℤ × ℤ`;
* a cell value is `Option ℤ` (`none` models a null/NaN block value; the
  classified rasters hold integral class codes, so `int(val)` is the
  identity and bit-for-bit float equality is integer equality);
* real arithmetic (`float`) is modelled by `ℚ`;
* the `math.hypot` square root has no exact rational value, so the
  nearest-neighbour metric is parametrised by the distance kernel.
-/

namespace TiszaMetrics

/-- A loaded raster block, as the metric functions see it: dimensions,
per-cell value lookup (`block.value(row, col)`), the pixel sizes
(`rasterUnitsPerPixelX/Y`, also `extent.width()/width` etc. in the
nearest-neighbour code) and the extent origin (`xMinimum`, `yMaximum`)
used by the geotransform in `NearestNeighbourDistance.calculateMetric`. -/
structure Grid where
  h : ℕ
  w : ℕ
  val : ℤ → ℤ → Option ℤ
  pw : ℚ
  ph : ℚ
  x0 : ℚ
  y0 : ℚ

/-- The in-bounds cells: `0 <= row < height and 0 <= col < width`. -/
def cellsF (g : Grid) : Finset (ℤ × ℤ) :=
  Finset.Ico (0 : ℤ) (g.h : ℤ) ×ˢ Finset.Ico (0 : ℤ) (g.w : ℤ)

theorem mem_cellsF {g : Grid} {p : ℤ × ℤ} :
    p ∈ cellsF g ↔ 0 ≤ p.1 ∧ p.1 < (g.h : ℤ) ∧ 0 ≤ p.2 ∧ p.2 < (g.w : ℤ) := by
  cases p with
  | mk r c => simp [cellsF, Finset.mem_Ico, and_assoc]

theorem card_cellsF (g : Grid) : (cellsF g).card = g.h * g.w := by
  simp [cellsF, Int.card_Ico]

/-- The 8-connectivity offsets used by every BFS metric
(`NumberOfPatches`, `MeanPatchArea`, `MedianPatchArea`,
`NearestNeighbourDistance`, and `Metrics/Helper.py`). -/
def dirs8 : List (ℤ × ℤ) :=
  [(-1, -1), (-1, 0), (-1, 1), (0, -1), (0, 1), (1, -1), (1, 0), (1, 1)]

/-- The 4-connectivity offsets: the `FractalDimensionIndex` perimeter rule,
and the default cross-shaped structuring element of `scipy.ndimage.label`. -/
def dirs4 : List (ℤ × ℤ) :=
  [(-1, 0), (1, 0), (0, -1), (0, 1)]

/-- One direction-scan step of the BFS inner loop: the neighbours of `p`
that are in bounds, not yet visited, and hold exactly the seed's class
value.  (The Python loop marks each such neighbour visited as it is
found; since the offsets are pairwise distinct the neighbours of one cell
never collide, so filtering against the pre-step visited set is
equivalent.) -/
def nbrs (ds : List (ℤ × ℤ)) (g : Grid) (v : ℤ) (vis : Finset (ℤ × ℤ))
    (p : ℤ × ℤ) : List (ℤ × ℤ) :=
  (ds.map (fun d => (p.1 + d.1, p.2 + d.2))).filter
    (fun q => decide (q ∈ cellsF g) && decide (q ∉ vis) &&
      decide (g.val q.1 q.2 = some v))

theorem mem_nbrs {ds : List (ℤ × ℤ)} {g : Grid} {v : ℤ}
    {vis : Finset (ℤ × ℤ)} {p q : ℤ × ℤ} :
    q ∈ nbrs ds g v vis p ↔
      (∃ d ∈ ds, (p.1 + d.1, p.2 + d.2) = q) ∧
        q ∈ cellsF g ∧ q ∉ vis ∧ g.val q.1 q.2 = some v := by
  simp [nbrs, List.mem_filter, List.mem_map, and_assoc]

theorem nbrs_nodup {ds : List (ℤ × ℤ)} (hds : ds.Nodup) (g : Grid) (v : ℤ)
    (vis : Finset (ℤ × ℤ)) (p : ℤ × ℤ) : (nbrs ds g v vis p).Nodup := by
  refine List.Nodup.filter _ (List.Nodup.map ?_ hds)
  intro a b hab
  have h1 : p.1 + a.1 = p.1 + b.1 := congrArg Prod.fst hab
  have h2 : p.2 + a.2 = p.2 + b.2 := congrArg Prod.snd hab
  exact Prod.ext (by omega) (by omega)

/-- The BFS worklist loop shared by `bfs` / `bfs_collect`
(`Metrics/Helper.py`) and the inline copies in `NumberOfPatches` and
`MeanPatchArea`: repeatedly dequeue a cell, record it (the returned list
is the dequeue order, from which the callers derive `patch_size` or the
pixel list), and enqueue-and-mark the matching unvisited neighbours.
The fuel only bounds the recursion; callers pass enough for the loop to
drain its queue. -/
def bfsLoop (ds : List (ℤ × ℤ)) (g : Grid) (v : ℤ) :
    ℕ → List (ℤ × ℤ) → Finset (ℤ × ℤ) → Finset (ℤ × ℤ) × List (ℤ × ℤ)
  | 0, _, vis => (vis, [])
  | _ + 1, [], vis => (vis, [])
  | fuel + 1, p :: rest, vis =>
    let ns := nbrs ds g v vis p
    let r := bfsLoop ds g v fuel (rest ++ ns) (vis ∪ ns.toFinset)
    (r.1, p :: r.2)

/-- Fuel that always suffices for a full-grid scan. -/
def bfsFuel (g : Grid) : ℕ := 2 * (g.h * g.w) + 1

/-- One BFS call from a seed cell: mark the seed, run the worklist loop. -/
def bfsRun (ds : List (ℤ × ℤ)) (g : Grid) (v : ℤ) (seed : ℤ × ℤ)
    (vis : Finset (ℤ × ℤ)) : Finset (ℤ × ℤ) × List (ℤ × ℤ) :=
  bfsLoop ds g v (bfsFuel g) [seed] (insert seed vis)

/-- One connected patch as delivered by a BFS call during the full-grid
scan: the seed's class value and the dequeued cells. -/
structure Patch where
  cls : ℤ
  cells : List (ℤ × ℤ)
  deriving DecidableEq

/-- Row-major cell enumeration (`for row in range(height): for col in
range(width)`). -/
def rowMajor (g : Grid) : List (ℤ × ℤ) :=
  (List.range g.h).flatMap
    (fun r => (List.range g.w).map (fun c => (Int.ofNat r, Int.ofNat c)))

theorem mem_rowMajor {g : Grid} {p : ℤ × ℤ} :
    p ∈ rowMajor g ↔ p ∈ cellsF g := by
  constructor
  · intro h
    obtain ⟨a, ha, hmem⟩ := List.mem_flatMap.mp h
    obtain ⟨b, hb, heq⟩ := List.mem_map.mp hmem
    have h1 : (a : ℤ) = p.1 := congrArg Prod.fst heq
    have h2 : (b : ℤ) = p.2 := congrArg Prod.snd heq
    rw [List.mem_range] at ha hb
    rw [mem_cellsF]
    refine ⟨?_, ?_, ?_, ?_⟩ <;> omega
  · intro h
    rw [mem_cellsF] at h
    obtain ⟨h1, h2, h3, h4⟩ := h
    refine List.mem_flatMap.mpr ⟨p.1.toNat, List.mem_range.mpr (by omega), ?_⟩
    refine List.mem_map.mpr ⟨p.2.toNat, List.mem_range.mpr (by omega), ?_⟩
    have e1 : Int.ofNat p.1.toNat = p.1 := Int.toNat_of_nonneg h1
    have e2 : Int.ofNat p.2.toNat = p.2 := Int.toNat_of_nonneg h3
    rw [e1, e2]

/-- The full-grid scan common to the BFS metrics
(`NumberOfPatches.calculateMetric`, `MeanPatchArea.calculateMetric`,
`NearestNeighbourDistance.calculateMetric`): walk the cells in row-major
order, skip visited cells and cells whose value `is None or value == 0`,
and seed a BFS on every remaining cell, yielding one patch per run. -/
def scanGo (ds : List (ℤ × ℤ)) (g : Grid) :
    List (ℤ × ℤ) → Finset (ℤ × ℤ) → Finset (ℤ × ℤ) × List Patch
  | [], vis => (vis, [])
  | p :: rest, vis =>
    if p ∈ vis then scanGo ds g rest vis
    else
      match g.val p.1 p.2 with
      | none => scanGo ds g rest vis
      | some v =>
        if v = 0 then scanGo ds g rest vis
        else
          let r := bfsRun ds g v p vis
          let r2 := scanGo ds g rest r.1
          (r2.1, ⟨v, r.2⟩ :: r2.2)

/-- The patch catalog derived by a full scan of the grid. -/
def patches (ds : List (ℤ × ℤ)) (g : Grid) : List Patch :=
  (scanGo ds g (rowMajor g) ∅).2

/-- A cell is foreground (non-background) when its value is neither null
nor `0`. -/
def isFG (g : Grid) (p : ℤ × ℤ) : Prop :=
  g.val p.1 p.2 ≠ none ∧ g.val p.1 p.2 ≠ some 0

instance (g : Grid) (p : ℤ × ℤ) : Decidable (isFG g p) := by
  unfold isFG; infer_instance

/-- The foreground cells of the grid. -/
def fgCells (g : Grid) : Finset (ℤ × ℤ) :=
  (cellsF g).filter (fun p => isFG g p)

/-- Union of the cell sets of a patch list. -/
def unionCells (ps : List Patch) : Finset (ℤ × ℤ) :=
  ps.foldr (fun pa acc => pa.cells.toFinset ∪ acc) ∅

theorem mem_unionCells {ps : List Patch} {x : ℤ × ℤ} :
    x ∈ unionCells ps ↔ ∃ pa ∈ ps, x ∈ pa.cells := by
  induction ps with
  | nil => simp [unionCells]
  | cons pa t ih =>
    simp only [unionCells, List.foldr_cons, Finset.mem_union, List.mem_toFinset,
      List.mem_cons]
    rw [show (t.foldr (fun pa acc => pa.cells.toFinset ∪ acc) ∅) = unionCells t from rfl] at *
    constructor
    · rintro (h | h)
      · exact ⟨pa, Or.inl rfl, h⟩
      · obtain ⟨q, hq, hx⟩ := ih.mp h
        exact ⟨q, Or.inr hq, hx⟩
    · rintro ⟨q, (rfl | hq), hx⟩
      · exact Or.inl hx
      · exact Or.inr (ih.mpr ⟨q, hq, hx⟩)

/-! ### Invariants of the BFS worklist loop -/

/-- Master invariant of the BFS loop: starting from a visited-marked
worklist of value-`v` cells with enough fuel, the loop only grows the
visited set inside the grid, every newly visited cell holds value `v`,
and the dequeued list enumerates, without repetition, exactly the newly
visited cells together with the initial worklist. -/
theorem bfsLoop_spec {ds : List (ℤ × ℤ)} (hds : ds.Nodup) (g : Grid) (v : ℤ) :
    ∀ (fuel : ℕ) (queue : List (ℤ × ℤ)) (vis : Finset (ℤ × ℤ)),
    queue.Nodup →
    (∀ p ∈ queue, p ∈ vis) →
    vis ⊆ cellsF g →
    (∀ p ∈ queue, g.val p.1 p.2 = some v) →
    queue.length + 2 * ((cellsF g).card - vis.card) ≤ fuel →
    vis ⊆ (bfsLoop ds g v fuel queue vis).1 ∧
    (bfsLoop ds g v fuel queue vis).1 ⊆ cellsF g ∧
    (∀ q ∈ (bfsLoop ds g v fuel queue vis).1 \ vis, g.val q.1 q.2 = some v) ∧
    (bfsLoop ds g v fuel queue vis).2.Nodup ∧
    (bfsLoop ds g v fuel queue vis).2.toFinset =
      ((bfsLoop ds g v fuel queue vis).1 \ vis) ∪ queue.toFinset := by
  intro fuel
  induction fuel with
  | zero =>
    intro queue vis h1 h2 h3 h4 h5
    have hq : queue = [] := List.eq_nil_of_length_eq_zero (by omega)
    subst hq
    refine ⟨subset_rfl, h3, ?_, ?_, ?_⟩ <;> simp [bfsLoop]
  | succ fuel ih =>
    intro queue vis h1 h2 h3 h4 h5
    cases queue with
    | nil =>
      refine ⟨subset_rfl, h3, ?_, ?_, ?_⟩ <;> simp [bfsLoop]
    | cons p rest =>
      set ns := nbrs ds g v vis p with hns
      set vis' := vis ∪ ns.toFinset with hvis'
      have hnsmem : ∀ q ∈ ns, q ∈ cellsF g ∧ q ∉ vis ∧ g.val q.1 q.2 = some v :=
        fun q hq => (mem_nbrs.mp hq).2
      have hnsnd : ns.Nodup := nbrs_nodup hds g v vis p
      have hdisj : Disjoint vis ns.toFinset := by
        rw [Finset.disjoint_right]
        intro q hq
        exact (hnsmem q (List.mem_toFinset.mp hq)).2.1
      have hcard : vis'.card = vis.card + ns.length := by
        rw [hvis', Finset.card_union_of_disjoint hdisj, List.toFinset_card_of_nodup hnsnd]
      have hsub' : vis' ⊆ cellsF g := by
        rw [hvis']
        refine Finset.union_subset h3 ?_
        intro q hq
        exact (hnsmem q (List.mem_toFinset.mp hq)).1
      have hle : vis'.card ≤ (cellsF g).card := Finset.card_le_card hsub'
      have hrestnd : rest.Nodup := h1.of_cons
      have hqnd : (rest ++ ns).Nodup := by
        refine hrestnd.append hnsnd ?_
        intro a ha hb
        exact (hnsmem a hb).2.1 (h2 a (List.mem_cons_of_mem p ha))
      have hqvis : ∀ q ∈ rest ++ ns, q ∈ vis' := by
        intro q hq
        rcases List.mem_append.mp hq with hq | hq
        · exact Finset.mem_union_left _ (h2 q (List.mem_cons_of_mem p hq))
        · exact Finset.mem_union_right _ (List.mem_toFinset.mpr hq)
      have hqval : ∀ q ∈ rest ++ ns, g.val q.1 q.2 = some v := by
        intro q hq
        rcases List.mem_append.mp hq with hq | hq
        · exact h4 q (List.mem_cons_of_mem p hq)
        · exact (hnsmem q hq).2.2
      have hfuel : (rest ++ ns).length + 2 * ((cellsF g).card - vis'.card) ≤ fuel := by
        rw [List.length_append]
        have h5' : (rest.length + 1) + 2 * ((cellsF g).card - vis.card) ≤ fuel + 1 := by
          simpa [List.length_cons] using h5
        omega
      obtain ⟨ih1, ih2, ih3, ih4, ih5⟩ := ih (rest ++ ns) vis' hqnd hqvis hsub' hqval hfuel
      set r := bfsLoop ds g v fuel (rest ++ ns) vis' with hr
      have hstep : bfsLoop ds g v (fuel + 1) (p :: rest) vis = (r.1, p :: r.2) := rfl
      rw [hstep]
      have hvsub : vis ⊆ vis' := Finset.subset_union_left
      have hpv : p ∈ vis := h2 p (List.mem_cons_self p rest)
      refine ⟨hvsub.trans ih1, ih2, ?_, ?_, ?_⟩
      · intro q hq
        obtain ⟨hq1, hq2⟩ := Finset.mem_sdiff.mp hq
        by_cases hq3 : q ∈ vis'
        · rcases Finset.mem_union.mp hq3 with h | h
          · exact absurd h hq2
          · exact (hnsmem q (List.mem_toFinset.mp h)).2.2
        · exact ih3 q (Finset.mem_sdiff.mpr ⟨hq1, hq3⟩)
      · refine List.Nodup.cons ?_ ih4
        intro hpr
        have hmem := ih5 ▸ List.mem_toFinset.mpr hpr
        rcases Finset.mem_union.mp hmem with h | h
        · exact (Finset.mem_sdiff.mp h).2 (hvsub hpv)
        · have hl : p ∈ rest ++ ns := List.mem_toFinset.mp h
          rcases List.mem_append.mp hl with h | h
          · exact (List.nodup_cons.mp h1).1 h
          · exact (hnsmem p h).2.1 hpv
      · have hsplit : r.2.toFinset = (r.1 \ vis') ∪ (rest.toFinset ∪ ns.toFinset) := by
          rw [ih5, List.toFinset_append]
        ext q
        simp only [List.toFinset_cons, Finset.mem_insert, hsplit, Finset.mem_union,
          Finset.mem_sdiff]
        constructor
        · rintro (rfl | ⟨hq1, hq2⟩ | hrest | hns2)
          · exact Or.inr (Or.inl rfl)
          · exact Or.inl ⟨hq1, fun hqv => hq2 (hvsub hqv)⟩
          · exact Or.inr (Or.inr hrest)
          · obtain ⟨_, hnv, _⟩ := hnsmem q (List.mem_toFinset.mp hns2)
            exact Or.inl ⟨ih1 (Finset.mem_union_right _ hns2), hnv⟩
        · rintro (⟨hq1, hq2⟩ | rfl | hrest)
          · by_cases hq3 : q ∈ vis'
            · rcases Finset.mem_union.mp hq3 with h | h
              · exact absurd h hq2
              · exact Or.inr (Or.inr (Or.inr h))
            · exact Or.inr (Or.inl ⟨hq1, hq3⟩)
          · exact Or.inl rfl
          · exact Or.inr (Or.inr (Or.inl hrest))

/-- Specification of one BFS call from an unvisited foreground seed: the
dequeued cell list enumerates the newly visited cells exactly once, all
of them hold the seed's class value, and the seed itself is among them. -/
theorem bfsRun_spec {ds : List (ℤ × ℤ)} (hds : ds.Nodup) (g : Grid) (v : ℤ)
    (seed : ℤ × ℤ) (vis : Finset (ℤ × ℤ))
    (hseed : seed ∈ cellsF g) (hnv : seed ∉ vis) (hsub : vis ⊆ cellsF g)
    (hval : g.val seed.1 seed.2 = some v) :
    vis ⊆ (bfsRun ds g v seed vis).1 ∧
    (bfsRun ds g v seed vis).1 ⊆ cellsF g ∧
    seed ∈ (bfsRun ds g v seed vis).1 ∧
    (∀ q ∈ (bfsRun ds g v seed vis).1 \ vis, g.val q.1 q.2 = some v) ∧
    (bfsRun ds g v seed vis).2.Nodup ∧
    (bfsRun ds g v seed vis).2.toFinset = (bfsRun ds g v seed vis).1 \ vis ∧
    (bfsRun ds g v seed vis).2 ≠ [] ∧
    (bfsRun ds g v seed vis).2.length = ((bfsRun ds g v seed vis).1 \ vis).card := by
  have hins : insert seed vis ⊆ cellsF g := Finset.insert_subset hseed hsub
  have hcardins : (insert seed vis).card = vis.card + 1 :=
    Finset.card_insert_of_not_mem hnv
  have hcardle : (insert seed vis).card ≤ (cellsF g).card := Finset.card_le_card hins
  have hfuel : [seed].length + 2 * ((cellsF g).card - (insert seed vis).card) ≤
      bfsFuel g := by
    have := card_cellsF g
    simp only [List.length_cons, List.length_nil, bfsFuel]
    omega
  obtain ⟨s1, s2, s3, s4, s5⟩ :=
    bfsLoop_spec hds g v (bfsFuel g) [seed] (insert seed vis)
      (List.nodup_singleton seed)
      (by intro p hp; rw [List.mem_singleton] at hp; subst hp; exact Finset.mem_insert_self _ _)
      hins
      (by intro p hp; rw [List.mem_singleton] at hp; subst hp; exact hval)
      hfuel
  set r := bfsLoop ds g v (bfsFuel g) [seed] (insert seed vis) with hr
  have hrdef : bfsRun ds g v seed vis = r := rfl
  rw [hrdef]
  have hvsub : vis ⊆ r.1 := (Finset.subset_insert seed vis).trans s1
  have hseedin : seed ∈ r.1 := s1 (Finset.mem_insert_self _ _)
  have htf : r.2.toFinset = r.1 \ vis := by
    rw [s5]
    ext q
    simp only [Finset.mem_union, Finset.mem_sdiff, List.toFinset_cons,
      List.toFinset_nil, insert_emptyc_eq, Finset.mem_insert,
      Finset.mem_singleton, Finset.not_mem_empty, or_false]
    constructor
    · rintro (⟨hq1, hq2⟩ | rfl)
      · exact ⟨hq1, fun hv => hq2 (Or.inr hv)⟩
      · exact ⟨hseedin, hnv⟩
    · rintro ⟨hq1, hq2⟩
      by_cases hqs : q = seed
      · exact Or.inr hqs
      · exact Or.inl ⟨hq1, fun hv => hv.elim hqs hq2⟩
  refine ⟨hvsub, s2, hseedin, ?_, s4, htf, ?_, ?_⟩
  · intro q hq
    obtain ⟨hq1, hq2⟩ := Finset.mem_sdiff.mp hq
    by_cases hqs : q = seed
    · subst hqs; exact hval
    · exact s3 q (Finset.mem_sdiff.mpr ⟨hq1, fun hv =>
        (Finset.mem_insert.mp hv).elim hqs hq2⟩)
  · intro hnil
    have : seed ∈ r.2.toFinset := htf ▸ Finset.mem_sdiff.mpr ⟨hseedin, hnv⟩
    rw [hnil] at this
    simp at this
  · rw [← htf, List.toFinset_card_of_nodup s4]

/-- Master invariant of the full-grid scan: every foreground cell of the
scanned list ends up visited, each produced patch is a nonempty
duplicate-free run of same-valued foreground cells, distinct patches are
disjoint and avoid the initially visited cells, and the visited set grows
by exactly the union of the produced patches. -/
theorem scanGo_spec {ds : List (ℤ × ℤ)} (hds : ds.Nodup) (g : Grid) :
    ∀ (L : List (ℤ × ℤ)) (vis : Finset (ℤ × ℤ)),
    (∀ p ∈ L, p ∈ cellsF g) →
    vis ⊆ cellsF g →
    vis ⊆ (scanGo ds g L vis).1 ∧
    (scanGo ds g L vis).1 ⊆ cellsF g ∧
    (∀ p ∈ L, isFG g p → p ∈ (scanGo ds g L vis).1) ∧
    (∀ pa ∈ (scanGo ds g L vis).2, pa.cls ≠ 0 ∧ pa.cells ≠ [] ∧ pa.cells.Nodup ∧
      ∀ c ∈ pa.cells, g.val c.1 c.2 = some pa.cls) ∧
    List.Pairwise (fun a b => Disjoint a.cells.toFinset b.cells.toFinset)
      (scanGo ds g L vis).2 ∧
    (∀ pa ∈ (scanGo ds g L vis).2, Disjoint pa.cells.toFinset vis) ∧
    (scanGo ds g L vis).1 = vis ∪ unionCells (scanGo ds g L vis).2 := by
  intro L
  induction L with
  | nil =>
    intro vis _ hsub
    refine ⟨subset_rfl, hsub, ?_, ?_, ?_, ?_, ?_⟩ <;> simp [scanGo, unionCells]
  | cons p rest ih =>
    intro vis hL hsub
    have hLrest : ∀ q ∈ rest, q ∈ cellsF g := fun q hq => hL q (List.mem_cons_of_mem p hq)
    have hpcell : p ∈ cellsF g := hL p (List.mem_cons_self p rest)
    by_cases hp : p ∈ vis
    · have heq : scanGo ds g (p :: rest) vis = scanGo ds g rest vis := by
        simp only [scanGo]
        rw [if_pos hp]
      rw [heq]
      obtain ⟨i1, i2, i3, i4, i5, i6, i7⟩ := ih vis hLrest hsub
      refine ⟨i1, i2, ?_, i4, i5, i6, i7⟩
      intro q hq hfg
      rcases List.mem_cons.mp hq with rfl | hq
      · exact i1 hp
      · exact i3 q hq hfg
    · cases hval : g.val p.1 p.2 with
      | none =>
        have heq : scanGo ds g (p :: rest) vis = scanGo ds g rest vis := by
          simp only [scanGo]
          rw [if_neg hp, hval]
        rw [heq]
        obtain ⟨i1, i2, i3, i4, i5, i6, i7⟩ := ih vis hLrest hsub
        refine ⟨i1, i2, ?_, i4, i5, i6, i7⟩
        intro q hq hfg
        rcases List.mem_cons.mp hq with rfl | hq
        · exact absurd hval hfg.1
        · exact i3 q hq hfg
      | some v =>
        by_cases hv0 : v = 0
        · subst hv0
          have heq : scanGo ds g (p :: rest) vis = scanGo ds g rest vis := by
            simp [scanGo, hp, hval]
          rw [heq]
          obtain ⟨i1, i2, i3, i4, i5, i6, i7⟩ := ih vis hLrest hsub
          refine ⟨i1, i2, ?_, i4, i5, i6, i7⟩
          intro q hq hfg
          rcases List.mem_cons.mp hq with rfl | hq
          · exact absurd hval hfg.2
          · exact i3 q hq hfg
        · set r := bfsRun ds g v p vis with hr
          have heq : scanGo ds g (p :: rest) vis =
              ((scanGo ds g rest r.1).1, ⟨v, r.2⟩ :: (scanGo ds g rest r.1).2) := by
            simp [scanGo, hp, hval, hv0, hr]
          obtain ⟨b1, b2, b3, b4, b5, b6, b7, b8⟩ :=
            bfsRun_spec hds g v p vis hpcell hp hsub hval
          obtain ⟨i1, i2, i3, i4, i5, i6, i7⟩ := ih r.1 hLrest b2
          rw [heq]
          have hcellsub : r.2.toFinset ⊆ r.1 := by
            rw [b6]; exact Finset.sdiff_subset
          refine ⟨?_, i2, ?_, ?_, ?_, ?_, ?_⟩
          · exact b1.trans i1
          · intro q hq hfg
            rcases List.mem_cons.mp hq with rfl | hq
            · exact i1 b3
            · exact i3 q hq hfg
          · intro pa hpa
            rcases List.mem_cons.mp hpa with rfl | hpa
            · exact ⟨hv0, b7, b5, fun c hc => b4 c (b6 ▸ List.mem_toFinset.mpr hc)⟩
            · exact i4 pa hpa
          · refine List.Pairwise.cons ?_ i5
            intro pa hpa
            exact Finset.disjoint_of_subset_left hcellsub (i6 pa hpa).symm
          · intro pa hpa
            rcases List.mem_cons.mp hpa with rfl | hpa
            · simp only [b6]
              exact Finset.sdiff_disjoint
            · exact Finset.disjoint_of_subset_right b1 (i6 pa hpa)
          · rw [i7]
            have hu : unionCells (⟨v, r.2⟩ :: (scanGo ds g rest r.1).2) =
                r.2.toFinset ∪ unionCells (scanGo ds g rest r.1).2 := rfl
            rw [hu, b6, ← Finset.union_assoc, Finset.union_sdiff_of_subset b1]

/-! ### Python-dict helpers

The metric functions accumulate per-class statistics in a `dict`; an
association list in key-insertion order models it. -/

/-- Dict update `m[v] = f(m.get(v, d))`: update key `v` in place, or append it. -/
def upsert {α : Type} (f : α → α) (d : α) : List (ℤ × α) → ℤ → List (ℤ × α)
  | [], v => [(v, f d)]
  | (k, a) :: t, v => if k = v then (k, f a) :: t else (k, a) :: upsert f d t v

/-- Dict read `m.get(v, d)`. -/
def alGetD {α : Type} (m : List (ℤ × α)) (v : ℤ) (d : α) : α :=
  (m.lookup v).getD d

theorem lookup_upsert_same {α : Type} (f : α → α) (d : α)
    (m : List (ℤ × α)) (v : ℤ) :
    (upsert f d m v).lookup v = some (f (alGetD m v d)) := by
  induction m with
  | nil => simp [upsert, alGetD, List.lookup]
  | cons kv t ih =>
    obtain ⟨k, a⟩ := kv
    by_cases hk : k = v
    · subst hk
      simp [upsert, alGetD, List.lookup]
    · have hbeq : (v == k) = false := beq_eq_false_iff_ne.mpr (Ne.symm hk)
      simp only [upsert, if_neg hk, List.lookup, hbeq]
      simpa [alGetD, List.lookup, hbeq] using ih

theorem lookup_upsert_ne {α : Type} (f : α → α) (d : α)
    (m : List (ℤ × α)) (v k : ℤ) (h : k ≠ v) :
    (upsert f d m v).lookup k = m.lookup k := by
  induction m with
  | nil => simp [upsert, List.lookup, beq_eq_false_iff_ne.mpr h]
  | cons kv t ih =>
    obtain ⟨k', a⟩ := kv
    by_cases hk : k' = v
    · subst hk
      simp [upsert, List.lookup, beq_eq_false_iff_ne.mpr h]
    · by_cases hkk : k = k'
      · subst hkk
        simp [upsert, if_neg hk, List.lookup]
      · simp [upsert, if_neg hk, List.lookup, beq_eq_false_iff_ne.mpr hkk, ih]

/-! ### The metric functions -/

/-- Dict of patch counts per class, built exactly as
`NumberOfPatches.calculateMetric` does during its scan: for each BFS run
from a seed of value `v`, `class_patch_counts[v] += 1` (starting at 0). -/
def numberOfPatches (g : Grid) : List (ℤ × ℕ) :=
  (patches dirs8 g).foldl (fun m pa => upsert (· + 1) 0 m pa.cls) []

/-- Ground coordinates of a cell centre, per the geotransform of
`NearestNeighbourDistance.calculateMetric` / `bfs_collect`:
`x = gt0 + (col + 0.5) * gt1`, `y = gt3 - (row + 0.5) * abs(gt5)`. -/
def coordOf (g : Grid) (c : ℤ × ℤ) : ℚ × ℚ :=
  (g.x0 + ((c.2 : ℚ) + 1/2) * g.pw, g.y0 - ((c.1 : ℚ) + 1/2) * |g.ph|)

/-- Patch centroid as computed by `bfs_collect`: the mean of the pixel
centre coordinates (the dequeued pixel list of the BFS). -/
def centroid (g : Grid) (cells : List (ℤ × ℤ)) : ℚ × ℚ :=
  ((cells.map (fun c => (coordOf g c).1)).sum / (cells.length : ℚ),
   (cells.map (fun c => (coordOf g c).2)).sum / (cells.length : ℚ))

/-- The `class_centroids` dict: per class, the centroid of every BFS patch, in
scan order, as built by `NearestNeighbourDistance.calculateMetric`. -/
def classCentroids (g : Grid) : List (ℤ × List (ℚ × ℚ)) :=
  (patches dirs8 g).foldl
    (fun m pa => upsert (fun l => l ++ [centroid g pa.cells]) [] m pa.cls) []

/-- Distance `math.hypot(x1 - x2, y1 - y2)` with the square root abstracted:
`hyp` is the distance kernel (its float value is irrational, so the
embedding keeps it as a parameter). -/
def pyDist (hyp : ℚ → ℚ → ℚ) (a b : ℚ × ℚ) : ℚ :=
  hyp (a.1 - b.1) (a.2 - b.2)

/-- Inner loop of the nearest-neighbour metric for the patch at index
`ic.1` with centroid `ic.2`: the running minimum over every other index
`j ≠ i` of the same class's centroid list, converted to km; `none` when
no other patch exists (`min_dist_m` stays `inf`). -/
def minNeighbourKm (hyp : ℚ → ℚ → ℚ) (cents : List (ℚ × ℚ))
    (ic : ℕ × (ℚ × ℚ)) : Option ℚ :=
  match (cents.enum.filter (fun jc => decide (jc.1 ≠ ic.1))).map
      (fun jc => pyDist hyp ic.2 jc.2) with
  | [] => none
  | d :: ds => some ((ds.foldl min d) / 1000)

/-- Per-class value of `NearestNeighbourDistance`: mean of the collected
minimum distances, `0.0` when the list is empty. -/
def nndValue (hyp : ℚ → ℚ → ℚ) (cents : List (ℚ × ℚ)) : ℚ :=
  let dists := cents.enum.filterMap (minNeighbourKm hyp cents)
  if dists = [] then 0 else dists.sum / (dists.length : ℚ)

/-- Embeds `NearestNeighbourDistance.calculateMetric`: dict from class value to
mean nearest-neighbour distance (km) over that class's patch centroids. -/
def nearestNeighbourDistance (hyp : ℚ → ℚ → ℚ) (g : Grid) : List (ℤ × ℚ) :=
  (classCentroids g).map (fun e => (e.1, nndValue hyp e.2))

/-- Written from the spec: the minimum distance from patch `i`'s centroid
to the centroid of another patch of the same class (`0` when the class
has no other patch, a case the spec's sentence does not reach). -/
def minDistToOther (hyp : ℚ → ℚ → ℚ) (cents : List (ℚ × ℚ)) (i : ℕ) : ℚ :=
  match (cents.enum.filter (fun jc => decide (jc.1 ≠ i))).map
      (fun jc => pyDist hyp (cents.getD i (0, 0)) jc.2) with
  | [] => 0
  | d :: ds => ds.foldl min d

/-- Written from the spec: "for each class, mean over its patches of the
minimum distance to another patch of the same class", converted to km. -/
def specNNDValue (hyp : ℚ → ℚ → ℚ) (cents : List (ℚ × ℚ)) : ℚ :=
  ((cents.enum.map (fun ic => minDistToOther hyp cents ic.1 / 1000)).sum) /
    (cents.length : ℚ)

/-- The `stats` dict of `EffectiveMeshSize.calculateMetric`: pixel counts per
raw value over every cell whose value `is not None` — value `0` is NOT
skipped here, unlike in the BFS metrics. -/
def emsCounts (g : Grid) : List (ℤ × ℕ) :=
  (rowMajor g).foldl
    (fun m p =>
      match g.val p.1 p.2 with
      | none => m
      | some v => upsert (· + 1) 0 m v) []

/-- Embeds `EffectiveMeshSize.calculateMetric`: `sum(a^2) / total_area / 1e6`
over the per-value pixel areas.  The Python division is unguarded, so a
zero `total_area` raises `ZeroDivisionError`, modelled as `none`. -/
def effectiveMeshSize (g : Grid) : Option ℚ :=
  let pixelArea := |g.pw * g.ph|
  let areas := (emsCounts g).map (fun e => (e.2 : ℚ) * pixelArea)
  let totalArea := areas.sum
  if totalArea = 0 then none
  else some ((areas.map (fun a => a ^ 2)).sum / totalArea / 1000000)

/-- Perimeter contribution of one cell in
`FractalDimensionIndex.calculateMetric`: `pixel_size_x` for every
4-neighbour that is outside the grid or holds a different value. -/
def fdiContrib (g : Grid) (p : ℤ × ℤ) (v : ℤ) : ℚ :=
  ((dirs4.filter (fun d =>
      let q := (p.1 + d.1, p.2 + d.2)
      decide (q ∉ cellsF g) || decide (g.val q.1 q.2 ≠ some v))).length : ℚ) * g.pw

/-- The `stats` dict of `FractalDimensionIndex.calculateMetric`:
`(pixel count, perimeter)` per raw value over every non-null cell —
value `0` is NOT skipped (only `None`/NaN cells are). -/
def fdiStats (g : Grid) : List (ℤ × (ℕ × ℚ)) :=
  (rowMajor g).foldl
    (fun m p =>
      match g.val p.1 p.2 with
      | none => m
      | some v => upsert (fun s => (s.1 + 1, s.2 + fdiContrib g p v)) (0, 0) m v) []

/-- Embeds `LandCover.calculateMetric`: per-value pixel percentage of the
non-null pixels.  `total_pixels` is the number of non-null cells; when it
is zero the class dict is empty and the division loop never runs. -/
def landCover (g : Grid) : List (ℤ × ℚ) :=
  let vals := (rowMajor g).filterMap (fun p => g.val p.1 p.2)
  let counts := vals.foldl (fun m v => upsert (· + 1) 0 m v) []
  counts.map (fun e => (e.1, ((e.2 : ℕ) : ℚ) / (vals.length : ℚ) * 100))

/-- The `raster_array` of `SplittingIndex` / `SmallestPatchArea`:
`0` for null or zero cells (background), `int(val)` otherwise. -/
def rasterSI (g : Grid) (p : ℤ × ℤ) : ℤ :=
  match g.val p.1 p.2 with
  | none => 0
  | some v => if v = 0 then 0 else v

/-- The per-class binary mask `(raster_array == val)` as a grid, `1` on
the class's cells and `0` elsewhere (same dimensions). -/
def maskOf (g : Grid) (v : ℤ) : Grid :=
  { g with val := fun r c => some (if rasterSI g (r, c) = v then 1 else 0) }

/-- Models `scipy.ndimage.label(binary_mask)` with its default cross-shaped
(4-connectivity) structuring element, modelled by the flood-fill scan of
the mask with `dirs4`: the labelled features are the 4-connected
components of the mask's `1` cells, so `num_features` is their number and
`np.sum(labeled_array == i)` enumerates their pixel counts. -/
def labelSizes (g : Grid) (v : ℤ) : List ℕ :=
  (patches dirs4 (maskOf g v)).map (fun pa => pa.cells.length)

/-- The class values iterated by the scipy-path metrics:
`np.unique(raster_array)` without the background `0` (the sort order of
`np.unique` only affects dict ordering, not its contents). -/
def classesSI (g : Grid) : List ℤ :=
  (((rowMajor g).map (fun p => rasterSI g p)).dedup).filter (fun v => decide (v ≠ 0))

/-- Embeds `SplittingIndex.calculateMetric`: per class,
`(sum areas)^2 / sum (area^2)` over the 4-connectivity labelled patches,
areas in km². -/
def splittingIndex (g : Grid) : List (ℤ × ℚ) :=
  classesSI g |>.filterMap (fun v =>
    let patchAreas := (labelSizes g v).map
      (fun (n : ℕ) => ((n : ℚ) * g.pw * g.ph) / 1000000)
    if patchAreas = [] then none
    else some (v, (patchAreas.sum) ^ 2 / (patchAreas.map (fun a => a ^ 2)).sum))

/-- Embeds `SmallestPatchArea.calculateMetric`: per class, the minimum
4-connectivity labelled patch area in km². -/
def smallestPatchArea (g : Grid) : List (ℤ × ℚ) :=
  classesSI g |>.filterMap (fun v =>
    let patchAreas := (labelSizes g v).map
      (fun (n : ℕ) => ((n : ℚ) * g.pw * g.ph) / 1000000)
    match patchAreas with
    | [] => none
    | a :: rest => some (v, rest.foldl min a))

/-- The `raster_array` of `PatchDensity`: `0` for null cells, `int(val) + 1`
otherwise ("+1 so the background stays 0" — note a raw value `0` therefore
becomes a real class here). -/
def rasterPD (g : Grid) (p : ℤ × ℤ) : ℤ :=
  match g.val p.1 p.2 with
  | none => 0
  | some v => v + 1

/-- The binary mask `(raster_array == val)` for the `PatchDensity` raster. -/
def maskPD (g : Grid) (v : ℤ) : Grid :=
  { g with val := fun r c => some (if rasterPD g (r, c) = v then 1 else 0) }

/-- The class values iterated by `PatchDensity`. -/
def classesPD (g : Grid) : List ℤ :=
  (((rowMajor g).map (fun p => rasterPD g p)).dedup).filter (fun v => decide (v ≠ 0))

/-- Per-class entry of `PatchDensity.calculateMetric`. -/
structure PDStat where
  numPatches : ℕ
  patchAreas : List ℚ
  classAreaKm2 : ℚ
  patchDensity : ℚ
  deriving DecidableEq

/-- Result of `PatchDensity.calculateMetric`. -/
structure PDResult where
  patchDensityTotal : ℚ
  totalPatches : ℕ
  totalArea : ℚ
  stats : List (ℤ × PDStat)
  deriving DecidableEq

/-- The landscape area `width * pixel_size_x * height * pixel_size_y / 1e6`. -/
def totalAreaKm2 (g : Grid) : ℚ :=
  ((g.w : ℚ) * g.pw * (g.h : ℚ) * g.ph) / 1000000

/-- Embeds `PatchDensity.calculateMetric`: per shifted class value, the number of
4-connectivity labelled patches, their areas (m²), the class area (km²)
and `num_features / total_area_km2` (guarded to `0` when the landscape
area is zero); keyed by `val - 1`.  Landscape totals alongside. -/
def patchDensity (g : Grid) : PDResult :=
  let stats := classesPD g |>.map (fun v =>
    let sizes := (patches dirs4 (maskPD g v)).map (fun pa => pa.cells.length)
    let patchAreas := sizes.map (fun (n : ℕ) => (n : ℚ) * g.pw * g.ph)
    let classCount := ((rowMajor g).filter (fun p => decide (rasterPD g p = v))).length
    let classAreaKm2 := ((classCount : ℚ) * g.pw * g.ph) / 1000000
    let density := if totalAreaKm2 g ≠ 0 then (sizes.length : ℚ) / totalAreaKm2 g else 0
    (v - 1, PDStat.mk sizes.length patchAreas classAreaKm2 density))
  let totalPatches := (classesPD g |>.map (fun v =>
    (patches dirs4 (maskPD g v)).length)).sum
  let totalDensity :=
    if totalAreaKm2 g ≠ 0 then (totalPatches : ℚ) / totalAreaKm2 g else 0
  PDResult.mk totalDensity totalPatches (totalAreaKm2 g) stats

/-- Embeds `LandscapeDivision.calculateMetric`, downstream of the external
`gdal:polygonize` call: the polygon features are abstracted as
`(VALUE, area)` pairs; features whose value equals the nodata value or is
`<= 0` are skipped, and a zero total area is guarded to `0.0`. -/
def landscapeDivision (nodata : Option ℤ) (feats : List (ℤ × ℚ)) : ℚ :=
  let kept := feats.filter
    (fun f => !(decide (nodata = some f.1)) && !(decide (f.1 ≤ 0)))
  let totalArea := (kept.map (fun f => f.2)).sum
  if totalArea = 0 then 0
  else 1 - (kept.map (fun f => (f.2 / totalArea) ^ 2)).sum

/-! ### The batch worker (`Controllers/BackgroundTaskWorker.py`)

`MetricCalculationWorker.run` is embedded at the level of its observable
outputs: the tidy rows (`data_to_write`) and the error signal emissions.
Progress signals, the per-layer `metric_data` summary and the
cancellation flag (false throughout the runs the claims describe) are
outside the embedding. -/

/-- A cell of the `data_to_write` value column: Python writes ints,
floats or strings there. -/
inductive RowVal
  | num (q : ℚ)
  | int (n : ℤ)
  | str (s : String)
  deriving DecidableEq

/-- One tidy row of `data_to_write`:
`[layer_name, metric_name, detail, value, unit, cls, class_name]`. -/
structure Row where
  layerName : String
  metricName : String
  detail : String
  value : RowVal
  unit : String
  classId : Option ℤ
  className : Option String
  deriving DecidableEq

/-- The result shapes the repository's metric functions deliver to the
worker: a scalar, a class-keyed dict of numbers, the nested
`PatchDensity` dict, or something else (stringified by the fallback
branch). -/
inductive MetricValue
  | scalar (x : ℚ)
  | classMap (entries : List (ℤ × ℚ))
  | densityVal (res : PDResult)
  | raw (s : String)
  deriving DecidableEq

/-- Python `int(x)` on a float: truncation toward zero, which on a rational is
T-division of numerator by denominator. -/
def pyInt (q : ℚ) : ℤ := q.num / (q.den : ℤ)

/-- The label lookup: the mapping entry for the class, else the fallback
concatenation of the word Class, a space and the printed value. -/
def resolveLabel (mapping : List (ℤ × String)) (cls : ℤ) : String :=
  (mapping.lookup cls).getD ("Class " ++ toString cls)

/-- Python `str.lower()` on one character (the labels are ASCII, where Python's
`lower` is exactly the `A..Z → a..z` shift). -/
def pyLowerChar (c : Char) : Char :=
  if 'A' ≤ c ∧ c ≤ 'Z' then Char.ofNat (c.toNat + 32) else c

/-- Python `str.lower()`. -/
def pyLower (s : String) : String := String.mk (s.data.map pyLowerChar)

/-- Python `str.strip()`: drop leading and trailing whitespace. -/
def pyStrip (s : String) : String :=
  String.mk
    (((s.data.dropWhile Char.isWhitespace).reverse.dropWhile Char.isWhitespace).reverse)

/-- The remainder of `s` after the first occurrence of the (nonempty)
separator `sep`, or `none` when `sep` does not occur — i.e. Python's
`sep in s` test and `s.split(sep, 1)[1]` in one step. -/
def afterFirst (sep : List Char) : List Char → Option (List Char)
  | [] => none
  | c :: rest =>
    if sep.isPrefixOf (c :: rest) then some (List.drop sep.length (c :: rest))
    else afterFirst sep rest

/-- The name-stripping step: `original_label.split(sep, 1)[1].strip()` with
separator space-hyphen-space when the separator occurs in
original_label`, else the label itself. -/
def classNameOf (label : String) : String :=
  match afterFirst (" - ".data) label.data with
  | some suf => pyStrip (String.mk suf)
  | none => label

/-- The test `class_name.lower().startswith(...)` against the lowercase
word class plus a space: the filter the worker
applies before emitting any class-keyed row. -/
def skipClass (cn : String) : Bool :=
  List.isPrefixOf ("class ".data) (pyLower cn).data

/-- The shared body of the worker's class-keyed branches: resolve the
label, strip the `"<code> - "` prefix, drop the class when the resulting
name lower-cases to a `"class "` prefix, else emit one row. -/
def classRows (layerName metricName detail unit : String)
    (mapping : List (ℤ × String)) (mkVal : ℚ → RowVal)
    (entries : List (ℤ × ℚ)) : List Row :=
  entries.filterMap (fun e =>
    let cn := classNameOf (resolveLabel mapping e.1)
    if skipClass cn then none
    else some (Row.mk layerName metricName detail (mkVal e.2) unit (some e.1) (some cn)))

/-- The `"Patch Density"` branch: two rows (patch count, per-class
density) per kept class of `value["patch_stats"]`. -/
def pdRows (layerName : String) (mapping : List (ℤ × String))
    (stats : List (ℤ × PDStat)) : List Row :=
  stats.flatMap (fun e =>
    let cn := classNameOf (resolveLabel mapping e.1)
    if skipClass cn then []
    else
      [Row.mk layerName "Patch Density" "Patch Count" (.int (e.2.numPatches : ℤ))
        "patches" (some e.1) (some cn),
       Row.mk layerName "Patch Density" "Patch Density" (.num e.2.patchDensity)
        "patches/km²" (some e.1) (some cn)])

/-- The worker's result-normalization taxonomy: `isinstance(value, dict)`
then a chain of `metric_name` comparisons, else the scalar and raw
branches.  (A `"Patch Density"` name paired with a flat class dict reads
`value.get("patch_stats", {})`, hence no rows; the converse mismatch
pairing never arises from the repository's metrics and is not modelled
further.  The generic dict branch's `str(value)` uses Lean's rendering,
not Python's `repr`; no claim depends on that string.) -/
def normalizeValue (layerName metricName : String)
    (mapping : List (ℤ × String)) (unitMapping : List (String × String))
    (value : MetricValue) : List Row :=
  match value with
  | .classMap entries =>
    if metricName = "Patch Density" then []
    else if metricName = "Land Cover" then
      classRows layerName metricName "Percentage" "%" mapping (fun q => .num q) entries
    else if metricName = "Mean Patch Area" ∨ metricName = "Median Patch Area" ∨
        metricName = "Smallest Patch Area" ∨ metricName = "Greatest Patch Area" then
      classRows layerName metricName metricName
        ((unitMapping.lookup metricName).getD "km²") mapping (fun q => .num q) entries
    else if metricName = "Nearest Neighbour Distance" then
      classRows layerName metricName "Nearest Neighbour Distance"
        ((unitMapping.lookup "Nearest Neighbour Distance").getD "km") mapping
        (fun q => .num q) entries
    else if metricName = "Number of Patches" then
      classRows layerName metricName "Patch Count" "patches" mapping
        (fun q => .int (pyInt q)) entries
    else if metricName = "Patch Cohesion Index" ∨ metricName = "Splitting Index" then
      classRows layerName metricName metricName
        ((unitMapping.lookup metricName).getD "Index") mapping (fun q => .num q) entries
    else
      [Row.mk layerName metricName "Raw Dict Output" (.str (toString entries))
        "N/A" none none]
  | .densityVal res =>
    if metricName = "Patch Density" then pdRows layerName mapping res.stats
    else
      [Row.mk layerName metricName "Raw Dict Output" (.str (toString res.totalPatches))
        "N/A" none none]
  | .scalar x =>
    [Row.mk layerName metricName "TOTAL Value" (.num x)
      (if metricName = "NumberOfPatches" ∨ metricName = "Number of Patches"
        then "patches" else (unitMapping.lookup metricName).getD "N/A")
      none none]
  | .raw s =>
    [Row.mk layerName metricName "Raw Output" (.str s) "N/A" none none]

/-- One (layer, metric) unit of work: on success, the normalized rows;
on an exception, one ERROR row plus one `error` signal emission. -/
def unitOutput {α : Type} (layerName : String)
    (metricFunc : α → Except String MetricValue) (metricName : String)
    (mapping : List (ℤ × String)) (unitMapping : List (String × String))
    (layer : α) : List Row × List String :=
  match metricFunc layer with
  | .ok v => (normalizeValue layerName metricName mapping unitMapping v, [])
  | .error e =>
    ([Row.mk layerName metricName "ERROR" (.str ("Calculation Failed: " ++ e))
        "N/A" none none],
     ["Error calculating " ++ metricName ++ " for " ++ layerName ++ ": " ++ e])

/-- Embeds `MetricCalculationWorker.run` over selected layers × selected
metrics: the concatenated tidy rows and the emitted error messages, in
processing order. -/
def runWorker {α : Type} (layers : List α) (layerName : α → String)
    (metrics : List ((α → Except String MetricValue) × String))
    (mappingFunc : α → List (ℤ × String))
    (unitMapping : List (String × String)) : List Row × List String :=
  (layers.flatMap (fun L => metrics.flatMap (fun m =>
      (unitOutput (layerName L) m.1 m.2 (mappingFunc L) unitMapping L).1)),
   layers.flatMap (fun L => metrics.flatMap (fun m =>
      (unitOutput (layerName L) m.1 m.2 (mappingFunc L) unitMapping L).2)))

/-! ### Concrete grids for witnesses and counterexamples -/

/-- Build a grid from row-major rows of optional values. -/
def gridOf (rows : List (List (Option ℤ))) (pw ph x0 y0 : ℚ) : Grid :=
  { h := rows.length
    w := (rows.headD []).length
    val := fun r c =>
      if 0 ≤ r ∧ 0 ≤ c then ((rows.getD r.toNat []).getD c.toNat none) else none
    pw := pw, ph := ph, x0 := x0, y0 := y0 }

/-- 2×2 grid with two diagonally-touching class-1 cells. -/
def diagGrid : Grid :=
  gridOf [[some 1, some 0], [some 0, some 1]] 1000 1000 0 0

/-- The spec's scenario-2 grid: 4×4, class 1 at two opposite corners. -/
def cornerGrid : Grid :=
  gridOf [[some 1, some 0, some 0, some 0],
          [some 0, some 0, some 0, some 0],
          [some 0, some 0, some 0, some 0],
          [some 0, some 0, some 0, some 1]] 100 100 0 0

/-- 1×2 grid: one class-1 cell, one background-0 cell. -/
def gridOneZero : Grid :=
  gridOf [[some 1, some 0]] 100 100 0 0

/-- 1×1 grid whose only cell is null. -/
def gridAllNull : Grid :=
  gridOf [[none]] 1 1 0 0

/-- 1×1 grid whose only cell holds the background value 0. -/
def gridAllZero : Grid :=
  gridOf [[some 0]] 1 1 0 0

/-- 3×3 grid with one class-1 patch and two class-2 patches
(null background). -/
def gridPD : Grid :=
  gridOf [[some 1, none, some 2],
          [none, none, none],
          [some 2, none, none]] 1000 1000 0 0

/-- 1×3 grid with two separate class-1 patches. -/
def gridNND : Grid :=
  gridOf [[some 1, none, some 1]] 1 1 0 0

/-! ### Theorems: consequences of the scan invariants -/

theorem dirs8_nodup : dirs8.Nodup := by decide

theorem dirs4_nodup : dirs4.Nodup := by decide

/-- The patch catalog of a full scan: patch properties, pairwise
disjointness, and coverage of exactly the foreground cells. -/
theorem patches_props {ds : List (ℤ × ℤ)} (hds : ds.Nodup) (g : Grid) :
    (∀ pa ∈ patches ds g, pa.cls ≠ 0 ∧ pa.cells ≠ [] ∧ pa.cells.Nodup ∧
      ∀ c ∈ pa.cells, g.val c.1 c.2 = some pa.cls) ∧
    List.Pairwise (fun a b => Disjoint a.cells.toFinset b.cells.toFinset)
      (patches ds g) ∧
    unionCells (patches ds g) = fgCells g := by
  obtain ⟨s1, s2, s3, s4, s5, s6, s7⟩ :=
    scanGo_spec hds g (rowMajor g) ∅ (fun p hp => mem_rowMajor.mp hp)
      (Finset.empty_subset _)
  have hvis : (scanGo ds g (rowMajor g) ∅).1 = unionCells (patches ds g) := by
    rw [s7]
    simp [patches]
  refine ⟨s4, s5, ?_⟩
  apply Finset.Subset.antisymm
  · intro x hx
    obtain ⟨pa, hpa, hxc⟩ := mem_unionCells.mp hx
    obtain ⟨hcls, _, _, hvals⟩ := s4 pa hpa
    have hval := hvals x hxc
    have hxvis : x ∈ (scanGo ds g (rowMajor g) ∅).1 := by
      rw [hvis]; exact hx
    have hcell : x ∈ cellsF g := s2 hxvis
    rw [fgCells, Finset.mem_filter]
    refine ⟨hcell, ?_, ?_⟩ <;> simp [hval, hcls]
  · intro x hx
    rw [fgCells, Finset.mem_filter] at hx
    have hx3 := s3 x (mem_rowMajor.mpr hx.1) hx.2
    rw [hvis] at hx3
    exact hx3

/-- Summing the pixel counts of pairwise-disjoint duplicate-free patches
gives the cardinality of their union. -/
theorem sum_lengths_eq_card_union (ps : List Patch)
    (hnd : ∀ pa ∈ ps, pa.cells.Nodup)
    (hpw : List.Pairwise (fun a b => Disjoint a.cells.toFinset b.cells.toFinset) ps) :
    (ps.map (fun pa => pa.cells.length)).sum = (unionCells ps).card := by
  induction ps with
  | nil => simp [unionCells]
  | cons pa t ih =>
    have hdisj : Disjoint pa.cells.toFinset (unionCells t) := by
      rw [Finset.disjoint_left]
      intro x hx hxu
      obtain ⟨pb, hpb, hxb⟩ := mem_unionCells.mp hxu
      have := (List.pairwise_cons.mp hpw).1 pb hpb
      exact (Finset.disjoint_left.mp this) hx (List.mem_toFinset.mpr hxb)
    have hu : unionCells (pa :: t) = pa.cells.toFinset ∪ unionCells t := rfl
    rw [List.map_cons, List.sum_cons, hu, Finset.card_union_of_disjoint hdisj,
      List.toFinset_card_of_nodup (hnd pa (List.mem_cons_self pa t)),
      ih (fun pb hpb => hnd pb (List.mem_cons_of_mem pa hpb))
        (List.pairwise_cons.mp hpw).2]

/-- The class-`v` patches cover exactly the value-`v` cells (`v ≠ 0`). -/
theorem unionCells_filter_class {ds : List (ℤ × ℤ)} (hds : ds.Nodup)
    (g : Grid) (v : ℤ) (hv : v ≠ 0) :
    unionCells ((patches ds g).filter (fun pa => decide (pa.cls = v))) =
      (cellsF g).filter (fun p => g.val p.1 p.2 = some v) := by
  obtain ⟨h1, h2, h3⟩ := patches_props hds g
  apply Finset.Subset.antisymm
  · intro x hx
    obtain ⟨pa, hpa, hxc⟩ := mem_unionCells.mp hx
    rw [List.mem_filter] at hpa
    obtain ⟨hpa, hcls⟩ := hpa
    have hval := (h1 pa hpa).2.2.2 x hxc
    have hcell : x ∈ fgCells g := by
      rw [← h3]
      exact mem_unionCells.mpr ⟨pa, hpa, hxc⟩
    rw [fgCells, Finset.mem_filter] at hcell
    rw [Finset.mem_filter]
    refine ⟨hcell.1, ?_⟩
    rw [hval, decide_eq_true_iff.mp hcls]
  · intro x hx
    rw [Finset.mem_filter] at hx
    obtain ⟨hcell, hval⟩ := hx
    have hfg : x ∈ fgCells g := by
      rw [fgCells, Finset.mem_filter]
      refine ⟨hcell, ?_, ?_⟩ <;> simp [hval, hv]
    rw [← h3] at hfg
    obtain ⟨pa, hpa, hxc⟩ := mem_unionCells.mp hfg
    have hpcls := (h1 pa hpa).2.2.2 x hxc
    have : pa.cls = v := by
      rw [hval] at hpcls
      exact (Option.some_injective _ hpcls.symm)
    exact mem_unionCells.mpr ⟨pa, List.mem_filter.mpr ⟨hpa, by simp [this]⟩, hxc⟩

/-- The class-count dict built by `NumberOfPatches`: looking up `v` after
folding counts exactly the class-`v` patches. -/
theorem numberOfPatches_count (l : List Patch) :
    ∀ (m : List (ℤ × ℕ)) (v : ℤ),
    alGetD (l.foldl (fun m pa => upsert (· + 1) 0 m pa.cls) m) v 0 =
      alGetD m v 0 + (l.filter (fun pa => decide (pa.cls = v))).length := by
  induction l with
  | nil => intro m v; simp
  | cons pa t ih =>
    intro m v
    rw [List.foldl_cons, ih]
    by_cases hc : pa.cls = v
    · subst hc
      rw [show alGetD (upsert (· + 1) 0 m pa.cls) pa.cls 0 =
          alGetD m pa.cls 0 + 1 by
        rw [alGetD, lookup_upsert_same]
        simp [alGetD]]
      simp [List.filter_cons]
      omega
    · rw [show alGetD (upsert (· + 1) 0 m pa.cls) v 0 = alGetD m v 0 by
        rw [alGetD, lookup_upsert_ne _ _ _ _ _ (fun h => hc h.symm)]
        rfl]
      simp [List.filter_cons, hc]

/-! ### Claim theorems -/

/-- C1: the BFS-based patch extraction partitions exactly the
non-background cells — patches are pairwise disjoint, their union is the
set of cells whose value is neither null nor 0, for every class `v ≠ 0`
the pixel counts of the class-`v` patches sum to the number of value-`v`
cells, and the `NumberOfPatches` dict counts each connected run exactly
once. -/
theorem bfs_patch_partition (g : Grid) (v : ℤ) (hv : v ≠ 0) :
    List.Pairwise (fun a b => Disjoint a.cells.toFinset b.cells.toFinset)
      (patches dirs8 g) ∧
    unionCells (patches dirs8 g) = fgCells g ∧
    (((patches dirs8 g).filter (fun pa => decide (pa.cls = v))).map
      (fun pa => pa.cells.length)).sum =
      ((cellsF g).filter (fun p => g.val p.1 p.2 = some v)).card ∧
    alGetD (numberOfPatches g) v 0 =
      ((patches dirs8 g).filter (fun pa => decide (pa.cls = v))).length := by
  obtain ⟨h1, h2, h3⟩ := patches_props dirs8_nodup g
  refine ⟨h2, h3, ?_, ?_⟩
  · rw [sum_lengths_eq_card_union _
      (fun pa hpa => (h1 pa (List.mem_of_mem_filter hpa)).2.2.1)
      (List.Pairwise.sublist (List.filter_sublist _) h2),
      unionCells_filter_class dirs8_nodup g v hv]
  · rw [numberOfPatches, numberOfPatches_count]
    simp [alGetD]

/-- Witness for C1 at the spec's scenario-2 grid with class 1. -/
theorem bfs_patch_partition_witness :
    (((patches dirs8 cornerGrid).filter (fun pa => decide (pa.cls = 1))).map
      (fun pa => pa.cells.length)).sum =
      ((cellsF cornerGrid).filter
        (fun p => cornerGrid.val p.1 p.2 = some 1)).card ∧
    alGetD (numberOfPatches cornerGrid) 1 0 =
      ((patches dirs8 cornerGrid).filter
        (fun pa => decide (pa.cls = 1))).length :=
  ⟨(bfs_patch_partition cornerGrid 1 (by decide)).2.2.1,
   (bfs_patch_partition cornerGrid 1 (by decide)).2.2.2⟩

/-- Evaluation helper: the splitting index of the diagonal-pair grid. -/
theorem splittingIndex_diag_eval : (splittingIndex diagGrid).lookup 1 = some 2 := by
  have h1 : classesSI diagGrid = [1] := by decide
  have h2 : labelSizes diagGrid 1 = [1, 1] := by decide
  have hpw : diagGrid.pw = 1000 := rfl
  have hph : diagGrid.ph = 1000 := rfl
  rw [splittingIndex, h1]
  simp only [List.filterMap_cons, List.filterMap_nil, h2, hpw, hph,
    List.map_cons, List.map_nil]
  norm_num [List.lookup]

/-- A successful association-list lookup is a membership. -/
theorem lookup_mem {α : Type} {l : List (ℤ × α)} {v : ℤ} {a : α}
    (h : l.lookup v = some a) : (v, a) ∈ l := by
  induction l with
  | nil => simp [List.lookup] at h
  | cons kv t ih =>
    obtain ⟨k, b⟩ := kv
    by_cases hk : v = k
    · subst hk
      simp only [List.lookup, beq_self_eq_true] at h
      rw [Option.some_injective _ h]
      exact List.mem_cons_self _ _
    · have hbeq : (v == k) = false := beq_eq_false_iff_ne.mpr hk
      simp only [List.lookup, hbeq] at h
      exact List.mem_cons_of_mem _ (ih h)

/-- C2 counterexample: on the 2×2 grid whose two class-1 cells touch only
diagonally, the BFS metrics see one patch (8-connectivity), but the
scipy-path labelling (default 4-connectivity) produces two patches, and
`SplittingIndex` accordingly returns 2, not the 1 a single patch would
give — the scipy path does NOT group diagonally-touching cells into one
patch as the claim states. -/
theorem scipy_connectivity_counterexample :
    alGetD (numberOfPatches diagGrid) 1 0 = 1 ∧
    (patches dirs4 (maskOf diagGrid 1)).length = 2 ∧
    (splittingIndex diagGrid).lookup 1 = some 2 :=
  ⟨by decide, by decide, splittingIndex_diag_eval⟩

/-- C2 amended: the BFS metrics use 8-connectivity — the scenario-2
corner grid yields two class-1 patches and the diagonal pair merges into
one — while the scipy-path metrics label with the default 4-connectivity,
so the same diagonal pair splits into two patches there. -/
theorem connectivity_amended :
    alGetD (numberOfPatches cornerGrid) 1 0 = 2 ∧
    alGetD (numberOfPatches diagGrid) 1 0 = 1 ∧
    (patches dirs4 (maskOf diagGrid 1)).length = 2 ∧
    (patches dirs8 diagGrid).length = 1 := by
  refine ⟨by decide, by decide, by decide, by decide⟩

/-- C3 counterexample: on a 1×2 grid holding a class-1 cell and a
background-0 cell, the background cell joins no BFS patch, yet
`EffectiveMeshSize`'s class-area groups and `FractalDimensionIndex`'s
accumulators both contain key 0 — background cells DO contribute to those
statistics. -/
theorem background_in_ems_fdi_counterexample :
    (emsCounts gridOneZero).lookup 0 = some 1 ∧
    ((fdiStats gridOneZero).lookup 0).isSome = true ∧
    patches dirs8 gridOneZero = [⟨1, [(0, 0)]⟩] := by
  refine ⟨by decide, by decide, by decide⟩

/-- Folding the `EffectiveMeshSize` accumulation over a cell list counts
every cell of each value, null cells excluded. -/
theorem emsCounts_fold (g : Grid) (L : List (ℤ × ℤ)) :
    ∀ (m : List (ℤ × ℕ)) (v : ℤ),
    alGetD (L.foldl (fun m p =>
        match g.val p.1 p.2 with
        | none => m
        | some w => upsert (· + 1) 0 m w) m) v 0 =
      alGetD m v 0 +
        (L.filter (fun p => decide (g.val p.1 p.2 = some v))).length := by
  induction L with
  | nil => intro m v; simp
  | cons p t ih =>
    intro m v
    rw [List.foldl_cons]
    cases hval : g.val p.1 p.2 with
    | none => simp [hval, ih, List.filter_cons]
    | some w =>
      by_cases hw : w = v
      · subst hw
        rw [ih]
        rw [show alGetD (upsert (· + 1) 0 m w) w 0 = alGetD m w 0 + 1 by
          rw [alGetD, lookup_upsert_same]; simp [alGetD]]
        simp [List.filter_cons, hval]
        omega
      · rw [ih]
        rw [show alGetD (upsert (· + 1) 0 m w) v 0 = alGetD m v 0 by
          rw [alGetD, lookup_upsert_ne _ _ _ _ _ (fun h => hw h.symm)]; rfl]
        simp [List.filter_cons, hval, hw]

/-- Folding the `FractalDimensionIndex` accumulation: the area component
counts every non-null cell of each value. -/
theorem fdiStats_fold (g : Grid) (L : List (ℤ × ℤ)) :
    ∀ (m : List (ℤ × (ℕ × ℚ))) (v : ℤ),
    (alGetD (L.foldl (fun m p =>
        match g.val p.1 p.2 with
        | none => m
        | some w => upsert (fun s => (s.1 + 1, s.2 + fdiContrib g p w)) (0, 0) m w)
      m) v (0, 0)).1 =
      (alGetD m v (0, 0)).1 +
        (L.filter (fun p => decide (g.val p.1 p.2 = some v))).length := by
  induction L with
  | nil => intro m v; simp
  | cons p t ih =>
    intro m v
    rw [List.foldl_cons]
    cases hval : g.val p.1 p.2 with
    | none =>
      rw [show (match (none : Option ℤ) with
          | none => m
          | some w => upsert (fun s => (s.1 + 1, s.2 + fdiContrib g p w)) (0, 0) m w)
          = m from rfl, ih, List.filter_cons]
      simp [hval]
    | some w =>
      by_cases hw : w = v
      · subst hw
        rw [ih]
        rw [show (alGetD (upsert (fun s => (s.1 + 1, s.2 + fdiContrib g p w))
            (0, 0) m w) w (0, 0)).1 = (alGetD m w (0, 0)).1 + 1 by
          rw [alGetD, lookup_upsert_same]; simp [alGetD]]
        simp [List.filter_cons, hval]
        omega
      · rw [ih]
        rw [show alGetD (upsert (fun s => (s.1 + 1, s.2 + fdiContrib g p w))
            (0, 0) m w) v (0, 0) = alGetD m v (0, 0) by
          rw [alGetD, lookup_upsert_ne _ _ _ _ _ (fun h => hw h.symm)]; rfl]
        simp [List.filter_cons, hval, hw]

/-- C3 amended: the BFS patches indeed never contain a background cell,
but `EffectiveMeshSize` and `FractalDimensionIndex` accumulate EVERY
non-null cell — their per-class area groups count value-0 cells exactly
like any other class, skipping only null (NaN) cells. -/
theorem background_exclusion_amended (g : Grid) (v : ℤ) :
    (∀ pa ∈ patches dirs8 g, ∀ c ∈ pa.cells,
      g.val c.1 c.2 ≠ none ∧ g.val c.1 c.2 ≠ some 0) ∧
    alGetD (emsCounts g) v 0 =
      ((rowMajor g).filter (fun p => decide (g.val p.1 p.2 = some v))).length ∧
    (alGetD (fdiStats g) v (0, 0)).1 =
      ((rowMajor g).filter (fun p => decide (g.val p.1 p.2 = some v))).length := by
  obtain ⟨h1, _, _⟩ := patches_props dirs8_nodup g
  refine ⟨?_, ?_, ?_⟩
  · intro pa hpa c hc
    obtain ⟨hcls, _, _, hvals⟩ := h1 pa hpa
    have := hvals c hc
    rw [this]
    exact ⟨by simp, by simp [hcls]⟩
  · rw [emsCounts, emsCounts_fold]
    simp [alGetD]
  · rw [fdiStats, fdiStats_fold]
    simp [alGetD]

/-- Witness for C3's amended statement at the counterexample grid: the
background value 0 itself is counted by the EMS accumulator. -/
theorem background_exclusion_amended_witness :
    alGetD (emsCounts gridOneZero) 0 0 =
      ((rowMajor gridOneZero).filter
        (fun p => decide (gridOneZero.val p.1 p.2 = some 0))).length :=
  (background_exclusion_amended gridOneZero 0).2.1

/-- A grid with no foreground cell yields no patch. -/
theorem patches_nil_of_all_null {ds : List (ℤ × ℤ)} (hds : ds.Nodup) (g : Grid)
    (h : ∀ p ∈ cellsF g, g.val p.1 p.2 = none) : patches ds g = [] := by
  obtain ⟨h1, _, h3⟩ := patches_props hds g
  cases hp : patches ds g with
  | nil => rfl
  | cons pa t =>
    exfalso
    have hpa : pa ∈ patches ds g := by
      rw [hp]; exact List.mem_cons_self pa t
    obtain ⟨_, hne, _, hvals⟩ := h1 pa hpa
    obtain ⟨c, hc⟩ := List.exists_mem_of_ne_nil pa.cells hne
    have hcu : c ∈ unionCells (patches ds g) := mem_unionCells.mpr ⟨pa, hpa, hc⟩
    rw [h3, fgCells, Finset.mem_filter] at hcu
    exact hcu.2.1 (h c hcu.1)

theorem length_rowMajor (g : Grid) : (rowMajor g).length = g.h * g.w := by
  rw [rowMajor, List.length_flatMap]
  have hmap : List.map
      (List.length ∘ fun r => List.map (fun c => (Int.ofNat r, Int.ofNat c))
        (List.range g.w))
      (List.range g.h) = List.replicate g.h g.w := by
    refine List.eq_replicate_iff.mpr ⟨by simp, ?_⟩
    intro b hb
    obtain ⟨r, hr, rfl⟩ := List.mem_map.mp hb
    simp [Function.comp]
  rw [hmap, List.sum_replicate, smul_eq_mul]

/-- C4 counterexample: on a 1×1 all-null grid `EffectiveMeshSize` hits
its unguarded division by the zero total area (a `ZeroDivisionError`,
not a returned 0), and on a 1×1 grid holding the background value 0,
`LandCover` returns `{0: 100.0}`, not the empty mapping. -/
theorem all_background_counterexample :
    effectiveMeshSize gridAllNull = none ∧
    landCover gridAllZero = [(0, 100)] := by
  constructor
  · have h1 : emsCounts gridAllNull = [] := by decide
    simp [effectiveMeshSize, h1]
  · have h1 : (rowMajor gridAllZero).filterMap
        (fun p => gridAllZero.val p.1 p.2) = [0] := by decide
    simp only [landCover, h1]
    norm_num [upsert]

theorem foldl_count_skip_all_null (g : Grid) (L : List (ℤ × ℤ))
    (h : ∀ p ∈ L, g.val p.1 p.2 = none) :
    ∀ (m : List (ℤ × ℕ)),
    L.foldl (fun m p =>
      match g.val p.1 p.2 with
      | none => m
      | some w => upsert (· + 1) 0 m w) m = m := by
  induction L with
  | nil => intro m; rfl
  | cons p t ih =>
    intro m
    rw [List.foldl_cons]
    have hp := h p (List.mem_cons_self p t)
    rw [hp, show (match (none : Option ℤ) with
        | none => m
        | some w => upsert (· + 1) 0 m w) = m from rfl]
    exact ih (fun q hq => h q (List.mem_cons_of_mem p hq)) m

theorem classesSI_nil (g : Grid) (h : ∀ p ∈ rowMajor g, rasterSI g p = 0) :
    classesSI g = [] := by
  rw [classesSI, List.filter_eq_nil_iff]
  intro a ha
  obtain ⟨p, hp, hpa⟩ := List.mem_map.mp (List.mem_dedup.mp ha)
  simp [← hpa, h p hp]

theorem classesPD_nil (g : Grid) (h : ∀ p ∈ rowMajor g, rasterPD g p = 0) :
    classesPD g = [] := by
  rw [classesPD, List.filter_eq_nil_iff]
  intro a ha
  obtain ⟨p, hp, hpa⟩ := List.mem_map.mp (List.mem_dedup.mp ha)
  simp [← hpa, h p hp]

theorem filterMap_all_some_zero (g : Grid) (L : List (ℤ × ℤ))
    (h : ∀ p ∈ L, g.val p.1 p.2 = some 0) :
    L.filterMap (fun p => g.val p.1 p.2) = List.replicate L.length 0 := by
  induction L with
  | nil => rfl
  | cons p t ih =>
    rw [List.filterMap_cons, h p (List.mem_cons_self p t), List.length_cons,
      List.replicate_succ, ih (fun q hq => h q (List.mem_cons_of_mem p hq))]

theorem tally_replicate_zero (n : ℕ) :
    ∀ k : ℕ, (List.replicate n (0 : ℤ)).foldl
      (fun m v => upsert (· + 1) 0 m v) [(0, k)] = [(0, k + n)] := by
  induction n with
  | zero => intro k; simp
  | succ n ih =>
    intro k
    rw [List.replicate_succ, List.foldl_cons,
      show upsert (· + 1) 0 [((0 : ℤ), k)] 0 = [(0, k + 1)] from rfl, ih]
    rw [show k + 1 + n = k + (n + 1) by omega]

/-- C4 amended: on an all-null grid every class-keyed metric does return
the empty mapping and the guarded `LandscapeDivision` returns 0, but
`EffectiveMeshSize` raises `ZeroDivisionError` (modelled `none`) instead
of returning 0; and when the grid's cells all hold the background value
0, `LandCover` returns `{0: 100.0}` rather than `{}` because it counts
every non-null cell. -/
theorem all_background_amended (hyp : ℚ → ℚ → ℚ) (g g' : Grid)
    (nodata : Option ℤ) (feats : List (ℤ × ℚ))
    (h1 : ∀ p ∈ cellsF g, g.val p.1 p.2 = none)
    (h2 : ∀ p ∈ cellsF g', g'.val p.1 p.2 = some 0)
    (h2b : 0 < g'.h * g'.w)
    (hf : ∀ f ∈ feats, f.1 ≤ 0 ∨ nodata = some f.1) :
    patches dirs8 g = [] ∧
    numberOfPatches g = [] ∧
    nearestNeighbourDistance hyp g = [] ∧
    landCover g = [] ∧
    splittingIndex g = [] ∧
    (patchDensity g).stats = [] ∧
    effectiveMeshSize g = none ∧
    landCover g' = [(0, 100)] ∧
    landscapeDivision nodata feats = 0 := by
  have h1' : ∀ p ∈ rowMajor g, g.val p.1 p.2 = none :=
    fun p hp => h1 p (mem_rowMajor.mp hp)
  have hpatches : patches dirs8 g = [] := patches_nil_of_all_null dirs8_nodup g h1
  refine ⟨hpatches, ?_, ?_, ?_, ?_, ?_, ?_, ?_, ?_⟩
  · rw [numberOfPatches, hpatches]
    rfl
  · rw [nearestNeighbourDistance, classCentroids, hpatches]
    rfl
  · have hvals : (rowMajor g).filterMap (fun p => g.val p.1 p.2) = [] :=
      List.filterMap_eq_nil_iff.mpr h1'
    simp [landCover, hvals]
  · rw [splittingIndex, classesSI_nil g (fun p hp => by simp [rasterSI, h1' p hp])]
    rfl
  · simp [patchDensity, classesPD_nil g (fun p hp => by simp [rasterPD, h1' p hp])]
  · have hc : emsCounts g = [] := by
      rw [emsCounts]
      exact foldl_count_skip_all_null g _ h1' []
    simp [effectiveMeshSize, hc]
  · have h2' : ∀ p ∈ rowMajor g', g'.val p.1 p.2 = some 0 :=
      fun p hp => h2 p (mem_rowMajor.mp hp)
    have hvals : (rowMajor g').filterMap (fun p => g'.val p.1 p.2) =
        List.replicate ((rowMajor g').length) 0 :=
      filterMap_all_some_zero g' _ h2'
    have hlen : (rowMajor g').length = g'.h * g'.w := length_rowMajor g'
    have hn : (rowMajor g').length ≠ 0 := by omega
    obtain ⟨n, hn'⟩ : ∃ n, (rowMajor g').length = n + 1 :=
      ⟨(rowMajor g').length - 1, by omega⟩
    simp only [landCover, hvals, hn', List.replicate_succ, List.foldl_cons,
      show upsert (· + 1) 0 [] (0 : ℤ) = [(0, 1)] from rfl,
      tally_replicate_zero n 1, List.map_cons, List.map_nil]
    have hl : ((0 : ℤ) :: List.replicate n (0 : ℤ)).length = n + 1 := by simp
    rw [hl, show (1 + n : ℕ) = n + 1 by omega,
      div_self (Nat.cast_ne_zero.mpr (Nat.succ_ne_zero n)), one_mul]
  · rw [landscapeDivision]
    have hkept : feats.filter
        (fun f => !(decide (nodata = some f.1)) && !(decide (f.1 ≤ 0))) = [] := by
      rw [List.filter_eq_nil_iff]
      intro f hfm
      rcases hf f hfm with h | h <;> simp [h]
    simp [hkept]

/-- Witness for C4's amended statement: concrete all-null and all-zero
grids and a background-only polygon feature list. -/
theorem all_background_amended_witness :
    landCover gridAllZero = [(0, 100)] ∧
    landscapeDivision (some (-1)) [(-1, 5), (0, 3)] = 0 :=
  ⟨(all_background_amended (fun _ _ => 0) gridAllNull gridAllZero (some (-1))
      [(-1, 5), (0, 3)] (by decide) (by decide) (by decide) (by decide)).2.2.2.2.2.2.2.1,
   (all_background_amended (fun _ _ => 0) gridAllNull gridAllZero (some (-1))
      [(-1, 5), (0, 3)] (by decide) (by decide) (by decide) (by decide)).2.2.2.2.2.2.2.2⟩

/-- For a nonempty list of positive rationals, the sum of squares is at
most the square of the sum, with equality exactly for singletons. -/
theorem sum_sq_le_sq_sum (l : List ℚ) (hpos : ∀ x ∈ l, 0 < x) :
    l ≠ [] →
    (l.map (fun a => a ^ 2)).sum ≤ l.sum ^ 2 ∧
      (l.sum ^ 2 = (l.map (fun a => a ^ 2)).sum ↔ l.length = 1) := by
  induction l with
  | nil => intro h; exact absurd rfl h
  | cons a t ih =>
    intro _
    have ha : 0 < a := hpos a (List.mem_cons_self a t)
    cases t with
    | nil => simp
    | cons b t' =>
      have htpos : ∀ x ∈ b :: t', 0 < x :=
        fun x hx => hpos x (List.mem_cons_of_mem a hx)
      obtain ⟨ih1, _⟩ := ih htpos (List.cons_ne_nil b t')
      have hS : 0 < (b :: t').sum := List.sum_pos _ htpos (List.cons_ne_nil b t')
      rw [List.map_cons, List.sum_cons, List.sum_cons]
      constructor
      · nlinarith [ih1, hS, ha]
      · constructor
        · intro heq
          exfalso
          nlinarith [ih1, hS, ha]
        · intro hlen
          exfalso
          simp only [List.length_cons] at hlen
          omega

/-- C5: every class present in the SplittingIndex result satisfies
`SI ≥ 1`, with equality exactly when the class consists of one labelled
patch (pixel area positive, as for any real raster). -/
theorem splitting_index_bound (g : Grid) (hpx : 0 < g.pw * g.ph)
    (v : ℤ) (si : ℚ) (hmem : (v, si) ∈ splittingIndex g) :
    1 ≤ si ∧ (si = 1 ↔ (patches dirs4 (maskOf g v)).length = 1) := by
  rw [splittingIndex] at hmem
  obtain ⟨w, hw, hfw⟩ := List.mem_filterMap.mp hmem
  by_cases hemp : (labelSizes g w).map
      (fun (n : ℕ) => ((n : ℚ) * g.pw * g.ph) / 1000000) = []
  · rw [if_pos hemp] at hfw
    exact absurd hfw (by simp)
  · rw [if_neg hemp] at hfw
    have hwv : w = v := congrArg Prod.fst (Option.some_injective _ hfw)
    subst hwv
    set areas := (labelSizes g w).map
      (fun (n : ℕ) => ((n : ℚ) * g.pw * g.ph) / 1000000) with hareas
    have hsi : si = areas.sum ^ 2 / (areas.map (fun a => a ^ 2)).sum :=
      (congrArg Prod.snd (Option.some_injective _ hfw)).symm
    have hpos : ∀ x ∈ areas, 0 < x := by
      intro x hx
      rw [hareas] at hx
      obtain ⟨n, hn, rfl⟩ := List.mem_map.mp hx
      have hn1 : 0 < n := by
        rw [labelSizes] at hn
        obtain ⟨pa, hpa, rfl⟩ := List.mem_map.mp hn
        exact List.length_pos.mpr
          ((patches_props dirs4_nodup (maskOf g w)).1 pa hpa).2.1
      have hnq : (0 : ℚ) < (n : ℚ) := by exact_mod_cast hn1
      rw [mul_assoc]
      have := mul_pos hnq hpx
      positivity
    obtain ⟨hle, hiff⟩ := sum_sq_le_sq_sum areas hpos hemp
    have hQpos : 0 < (areas.map (fun a => a ^ 2)).sum := by
      refine List.sum_pos _ ?_ (by simpa using hemp)
      intro x hx
      obtain ⟨a, ha, rfl⟩ := List.mem_map.mp hx
      exact pow_pos (hpos a ha) 2
    have hlen : areas.length = (patches dirs4 (maskOf g w)).length := by
      rw [hareas, List.length_map, labelSizes, List.length_map]
    constructor
    · rw [hsi, le_div_iff₀ hQpos, one_mul]
      exact hle
    · rw [hsi, div_eq_one_iff_eq hQpos.ne', hiff, hlen]

/-- Witness for C5 at the diagonal-pair grid: its class 1 has two
labelled patches and splitting index 2. -/
theorem splitting_index_bound_witness :
    1 ≤ (2 : ℚ) ∧ ((2 : ℚ) = 1 ↔ (patches dirs4 (maskOf diagGrid 1)).length = 1) :=
  splitting_index_bound diagGrid
    (by rw [show diagGrid.pw = 1000 from rfl, show diagGrid.ph = 1000 from rfl]
        norm_num)
    1 2 (lookup_mem splittingIndex_diag_eval)

/-- C6: for any grid with nonzero landscape area, `PatchDensity` reports
for each class key a density equal to that class's own patch count
divided by the total landscape area in km² (and the count is exactly the
number of 4-connectivity patches of that class), not a global figure. -/
theorem patch_density_per_class (g : Grid) (hA : totalAreaKm2 g ≠ 0)
    (v : ℤ) (s : PDStat) (hmem : (v, s) ∈ (patchDensity g).stats) :
    s.patchDensity = (s.numPatches : ℚ) / totalAreaKm2 g ∧
    s.numPatches = (patches dirs4 (maskPD g (v + 1))).length := by
  simp only [patchDensity] at hmem
  obtain ⟨w, hw, heq⟩ := List.mem_map.mp hmem
  have hwv : w - 1 = v := congrArg Prod.fst heq
  have hs := congrArg Prod.snd heq
  simp only at hs hwv
  have hw1 : w = v + 1 := by omega
  subst hw1
  rw [← hs]
  simp only [List.length_map]
  rw [if_pos hA]
  exact ⟨rfl, trivial⟩

/-- Witness for C6 at a 3×3 grid with one class-1 patch (raster value
shifted to 2) among nine cells of 1 km² each. -/
theorem patch_density_per_class_witness :
    (PDStat.mk 1 [1000000] 1 (1 / 9)).patchDensity =
      ((PDStat.mk 1 [1000000] 1 (1 / 9)).numPatches : ℚ) / totalAreaKm2 gridPD ∧
    (PDStat.mk 1 [1000000] 1 (1 / 9)).numPatches =
      (patches dirs4 (maskPD gridPD (1 + 1))).length := by
  have htot : totalAreaKm2 gridPD = 9 := by
    norm_num [totalAreaKm2, show gridPD.w = 3 from rfl, show gridPD.h = 3 from rfl,
      show gridPD.pw = 1000 from rfl, show gridPD.ph = 1000 from rfl]
  refine patch_density_per_class gridPD (by rw [htot]; norm_num) 1
    (PDStat.mk 1 [1000000] 1 (1 / 9)) ?_
  have hclasses : classesPD gridPD = [2, 3] := by decide
  have h2 : (patches dirs4 (maskPD gridPD 2)).map (fun pa => pa.cells.length)
      = [1] := by decide
  have hc2 : ((rowMajor gridPD).filter
      (fun p => decide (rasterPD gridPD p = 2))).length = 1 := by decide
  simp only [patchDensity, hclasses, List.map_cons, List.map_nil, h2, hc2]
  refine List.mem_cons.mpr (Or.inl ?_)
  rw [htot]
  norm_num [show gridPD.pw = 1000 from rfl, show gridPD.ph = 1000 from rfl]

/-- Looking up in a value-mapped association list. -/
theorem lookup_map_snd {α β : Type} (l : List (ℤ × α)) (f : α → β) (v : ℤ) :
    (l.map (fun e => (e.1, f e.2))).lookup v = (l.lookup v).map f := by
  induction l with
  | nil => rfl
  | cons e t ih =>
    obtain ⟨k, a⟩ := e
    by_cases hk : v = k
    · subst hk
      simp [List.lookup]
    · have hbeq : (v == k) = false := beq_eq_false_iff_ne.mpr hk
      simp [List.lookup, hbeq, ih]

/-- A `filterMap` whose function always succeeds is a `map`. -/
theorem filterMap_eq_map_of_some {α β : Type} (l : List α) (f : α → Option β)
    (g : α → β) (h : ∀ a ∈ l, f a = some (g a)) : l.filterMap f = l.map g := by
  induction l with
  | nil => rfl
  | cons a t ih =>
    rw [List.filterMap_cons, h a (List.mem_cons_self a t), List.map_cons,
      ih (fun b hb => h b (List.mem_cons_of_mem a hb))]

/-- When a class has at least two patches, the inner nearest-neighbour
loop always finds another same-class centroid, and its result is the
spec-side minimum distance divided by 1000. -/
theorem minNeighbourKm_eq (hyp : ℚ → ℚ → ℚ) (cents : List (ℚ × ℚ))
    (h2 : 2 ≤ cents.length) (ic : ℕ × (ℚ × ℚ)) (hic : ic ∈ cents.enum) :
    minNeighbourKm hyp cents ic = some (minDistToOther hyp cents ic.1 / 1000) := by
  have hget : cents[ic.1]? = some ic.2 := List.mem_enum_iff_getElem?.mp hic
  have hgetD : cents.getD ic.1 (0, 0) = ic.2 := by
    rw [List.getD_eq_getElem?_getD, hget]
    rfl
  set j : ℕ := if ic.1 = 0 then 1 else 0 with hj
  have hjlt : j < cents.length := by
    by_cases h0 : ic.1 = 0 <;> · simp [hj, h0]; omega
  have hjne : j ≠ ic.1 := by
    by_cases h0 : ic.1 = 0
    · simp [hj, h0]
    · simp [hj, h0]
      omega
  have hjmem : (j, cents[j]) ∈ cents.enum := by
    rw [List.mem_enum_iff_getElem?]
    simp [List.getElem?_eq_getElem hjlt]
  have hfil : (j, cents[j]) ∈ cents.enum.filter
      (fun jc => decide (jc.1 ≠ ic.1)) :=
    List.mem_filter.mpr ⟨hjmem, by simp [hjne]⟩
  simp only [minNeighbourKm, minDistToOther, hgetD]
  cases hml : (cents.enum.filter (fun jc => decide (jc.1 ≠ ic.1))).map
      (fun jc => pyDist hyp ic.2 jc.2) with
  | nil =>
    exfalso
    rw [List.map_eq_nil_iff] at hml
    rw [hml] at hfil
    exact absurd hfil (List.not_mem_nil _)
  | cons d ds => rfl

/-- C7: for every class with at least two patches, the
`NearestNeighbourDistance` entry equals the spec-side formula — the
arithmetic mean, over the class's own patch centroids, of each
centroid's minimum distance to another centroid of the same class,
converted to km.  (Centroids of other classes never enter: both sides
range over the class's centroid list only.) -/
theorem nnd_same_class_mean (hyp : ℚ → ℚ → ℚ) (g : Grid) (v : ℤ)
    (cents : List (ℚ × ℚ))
    (h1 : (classCentroids g).lookup v = some cents) (h2 : 2 ≤ cents.length) :
    (nearestNeighbourDistance hyp g).lookup v =
      some (specNNDValue hyp cents) := by
  rw [nearestNeighbourDistance, lookup_map_snd, h1, Option.map_some']
  congr 1
  have hfm : cents.enum.filterMap (minNeighbourKm hyp cents) =
      cents.enum.map (fun ic => minDistToOther hyp cents ic.1 / 1000) :=
    filterMap_eq_map_of_some _ _ _
      (fun ic hic => minNeighbourKm_eq hyp cents h2 ic hic)
  have hne : cents.enum.map
      (fun ic => minDistToOther hyp cents ic.1 / 1000) ≠ [] := by
    rw [ne_eq, List.map_eq_nil_iff, List.enum_eq_nil]
    intro hnil
    rw [hnil] at h2
    simp at h2
  simp only [nndValue, hfm, if_neg hne, specNNDValue, List.length_map,
    List.enum_length]

/-- Witness for C7 at a 1×3 grid with two class-1 patches, using a
concrete distance kernel. -/
theorem nnd_same_class_mean_witness :
    (nearestNeighbourDistance (fun a b => a * a + b * b) gridNND).lookup 1 =
      some (specNNDValue (fun a b => a * a + b * b)
        [(1/2, -1/2), (5/2, -1/2)]) := by
  refine nnd_same_class_mean _ gridNND 1 [(1/2, -1/2), (5/2, -1/2)] ?_ (by norm_num)
  have hp : patches dirs8 gridNND = [⟨1, [(0, 0)]⟩, ⟨1, [(0, 2)]⟩] := by decide
  rw [classCentroids, hp]
  simp only [List.foldl_cons, List.foldl_nil,
    show upsert (fun l => l ++ [centroid gridNND [((0 : ℤ), (0 : ℤ))]]) [] [] (1 : ℤ) =
      [(1, [centroid gridNND [(0, 0)]])] from rfl,
    show upsert (fun l => l ++ [centroid gridNND [((0 : ℤ), (2 : ℤ))]])
        [] [((1 : ℤ), [centroid gridNND [((0 : ℤ), (0 : ℤ))]])] 1 =
      [(1, [centroid gridNND [(0, 0)], centroid gridNND [(0, 2)]])] from rfl]
  have hc1 : centroid gridNND [((0 : ℤ), (0 : ℤ))] = (1/2, -1/2) := by
    norm_num [centroid, coordOf, show gridNND.pw = 1 from rfl,
      show gridNND.ph = 1 from rfl, show gridNND.x0 = 0 from rfl,
      show gridNND.y0 = 0 from rfl]
  have hc2 : centroid gridNND [((0 : ℤ), (2 : ℤ))] = (5/2, -1/2) := by
    norm_num [centroid, coordOf, show gridNND.pw = 1 from rfl,
      show gridNND.ph = 1 from rfl, show gridNND.x0 = 0 from rfl,
      show gridNND.y0 = 0 from rfl]
  rw [hc1, hc2]
  rfl

/-- Folding the `class_centroids` accumulation appends, per class, the
centroids of its patches in scan order. -/
theorem classCentroids_fold (g : Grid) (l : List Patch) :
    ∀ (m : List (ℤ × List (ℚ × ℚ))) (v : ℤ),
    alGetD (l.foldl
      (fun m pa => upsert (fun cl => cl ++ [centroid g pa.cells]) [] m pa.cls) m)
        v [] =
      alGetD m v [] ++
        ((l.filter (fun pa => decide (pa.cls = v))).map
          (fun pa => centroid g pa.cells)) := by
  induction l with
  | nil => intro m v; simp
  | cons pa t ih =>
    intro m v
    rw [List.foldl_cons, ih]
    by_cases hc : pa.cls = v
    · subst hc
      rw [show alGetD (upsert (fun cl => cl ++ [centroid g pa.cells]) [] m pa.cls)
          pa.cls [] = alGetD m pa.cls [] ++ [centroid g pa.cells] by
        rw [alGetD, lookup_upsert_same]
        simp [alGetD]]
      simp [List.filter_cons]
    · rw [show alGetD (upsert (fun cl => cl ++ [centroid g pa.cells]) [] m pa.cls)
          v [] = alGetD m v [] by
        rw [alGetD, lookup_upsert_ne _ _ _ _ _ (fun h => hc h.symm)]
        rfl]
      simp [List.filter_cons, hc]

/-- C10: a class with exactly one BFS patch is still present in the
`NearestNeighbourDistance` result, with value 0.0 (the empty distance
list averages to the `else` branch's 0.0). -/
theorem nnd_singleton_class (hyp : ℚ → ℚ → ℚ) (g : Grid) (v : ℤ)
    (h : ((patches dirs8 g).filter (fun pa => decide (pa.cls = v))).length = 1) :
    (nearestNeighbourDistance hyp g).lookup v = some 0 := by
  have halg : alGetD (classCentroids g) v [] =
      ((patches dirs8 g).filter (fun pa => decide (pa.cls = v))).map
        (fun pa => centroid g pa.cells) := by
    rw [classCentroids, classCentroids_fold]
    simp [alGetD]
  cases hl : (classCentroids g).lookup v with
  | none =>
    exfalso
    rw [alGetD, hl] at halg
    have := congrArg List.length halg
    rw [List.length_map, h] at this
    simp at this
  | some cl =>
    have hcl : cl = ((patches dirs8 g).filter
        (fun pa => decide (pa.cls = v))).map (fun pa => centroid g pa.cells) := by
      rw [alGetD, hl] at halg
      exact halg
    have hlen : cl.length = 1 := by
      rw [hcl, List.length_map, h]
    obtain ⟨c, rfl⟩ := List.length_eq_one.mp hlen
    rw [nearestNeighbourDistance, lookup_map_snd, hl, Option.map_some']
    rfl

/-- Witness for C10: the 1×2 grid has exactly one class-1 patch, and
`NearestNeighbourDistance` maps class 1 to 0. -/
theorem nnd_singleton_class_witness :
    (nearestNeighbourDistance (fun a b => a + b) gridOneZero).lookup 1 = some 0 :=
  nnd_singleton_class (fun a b => a + b) gridOneZero 1 (by decide)

/-- C8: a unit whose metric computation throws yields exactly one ERROR
row (`detail="ERROR"`, value `"Calculation Failed: <message>"`) and one
error emission, and the batch continues: three layers × one scalar
metric with the middle layer throwing still produce three rows, exactly
one of them the ERROR row, in order. -/
theorem worker_error_isolation {α : Type} (L1 L2 L3 : α) (nameF : α → String)
    (f : α → Except String MetricValue) (metricName : String)
    (mappingF : α → List (ℤ × String)) (units : List (String × String))
    (x y : ℚ) (msg : String)
    (h1 : f L1 = .ok (.scalar x)) (h2 : f L2 = .error msg)
    (h3 : f L3 = .ok (.scalar y)) :
    (runWorker [L1, L2, L3] nameF [(f, metricName)] mappingF units).1.length = 3 ∧
    ((runWorker [L1, L2, L3] nameF [(f, metricName)] mappingF units).1.filter
      (fun r => decide (r.detail = "ERROR"))).length = 1 ∧
    (runWorker [L1, L2, L3] nameF [(f, metricName)] mappingF units).1[1]? =
      some (Row.mk (nameF L2) metricName "ERROR"
        (.str ("Calculation Failed: " ++ msg)) "N/A" none none) ∧
    (runWorker [L1, L2, L3] nameF [(f, metricName)] mappingF units).2 =
      ["Error calculating " ++ metricName ++ " for " ++ nameF L2 ++ ": " ++ msg] := by
  simp only [runWorker, List.flatMap_cons, List.flatMap_nil, List.append_nil,
    unitOutput, h1, h2, h3, normalizeValue]
  refine ⟨rfl, ?_, rfl, rfl⟩
  simp [List.filter]

/-- Witness for C8: three string layers, a scalar metric that throws on
the middle one. -/
theorem worker_error_isolation_witness :
    (runWorker ["A", "B", "C"] (fun s => s)
      [(fun s => if s = "B" then Except.error "boom"
          else Except.ok (MetricValue.scalar 1), "Effective Mesh Size")]
      (fun _ => []) []).1.length = 3 ∧
    ((runWorker ["A", "B", "C"] (fun s => s)
      [(fun s => if s = "B" then Except.error "boom"
          else Except.ok (MetricValue.scalar 1), "Effective Mesh Size")]
      (fun _ => []) []).1.filter
        (fun r => decide (r.detail = "ERROR"))).length = 1 ∧
    (runWorker ["A", "B", "C"] (fun s => s)
      [(fun s => if s = "B" then Except.error "boom"
          else Except.ok (MetricValue.scalar 1), "Effective Mesh Size")]
      (fun _ => []) []).1[1]? =
      some (Row.mk "B" "Effective Mesh Size" "ERROR"
        (.str ("Calculation Failed: " ++ "boom")) "N/A" none none) ∧
    (runWorker ["A", "B", "C"] (fun s => s)
      [(fun s => if s = "B" then Except.error "boom"
          else Except.ok (MetricValue.scalar 1), "Effective Mesh Size")]
      (fun _ => []) []).2 =
      ["Error calculating " ++ "Effective Mesh Size" ++ " for " ++ "B" ++ ": " ++ "boom"] :=
  worker_error_isolation "A" "B" "C" (fun s => s)
    (fun s => if s = "B" then Except.error "boom"
      else Except.ok (MetricValue.scalar 1))
    "Effective Mesh Size" (fun _ => []) [] 1 1 "boom" rfl rfl rfl

/-- C9 counterexample: one layer, `NumberOfPatches` returning `{1: 2}`,
and an empty class-label mapping — the batch emits NO row for class 1:
the fallback label `"Class 1"` is computed but the
`class_name.lower().startswith("class ")` filter then drops the row,
contradicting the claim that the class's tidy rows are still emitted. -/
theorem missing_label_rows_dropped :
    (runWorker ["Layer1"] (fun s => s)
      [(fun _ => Except.ok (MetricValue.classMap [(1, 2)]), "Number of Patches")]
      (fun _ => []) []).1 = [] := by decide

/-- C9 amended: the worker computes the fallback label `"Class <value>"`
for a class missing from the mapping, but then drops every class whose
resolved display name lower-cases to a `"class "` prefix — which the
fallback always does — so missing-label classes emit no rows at all;
classes with a proper `"<code> - <name>"` label emit their row with the
prefix stripped. -/
theorem class_label_fallback_amended {α : Type} (L : α) (nameF : α → String)
    (f : α → Except String MetricValue) (entries : List (ℤ × ℚ))
    (mapping : List (ℤ × String)) (units : List (String × String))
    (cls : ℤ) (n : ℚ)
    (hf : f L = .ok (.classMap entries)) :
    (∀ r ∈ (runWorker [L] nameF [(f, "Number of Patches")]
        (fun _ => mapping) units).1,
      ∃ cn, r.className = some cn ∧ skipClass cn = false) ∧
    (skipClass (classNameOf (resolveLabel mapping cls)) = true →
      ∀ r ∈ (runWorker [L] nameF [(f, "Number of Patches")]
          (fun _ => mapping) units).1,
        r.classId ≠ some cls) ∧
    (∀ lbl, mapping.lookup cls = some lbl →
      skipClass (classNameOf lbl) = false → (cls, n) ∈ entries →
      Row.mk (nameF L) "Number of Patches" "Patch Count" (.int (pyInt n))
        "patches" (some cls) (some (classNameOf lbl)) ∈
        (runWorker [L] nameF [(f, "Number of Patches")]
          (fun _ => mapping) units).1) := by
  have hrows : (runWorker [L] nameF [(f, "Number of Patches")]
      (fun _ => mapping) units).1 =
      classRows (nameF L) "Number of Patches" "Patch Count" "patches" mapping
        (fun q => .int (pyInt q)) entries := by
    simp only [runWorker, List.flatMap_cons, List.flatMap_nil, List.append_nil,
      unitOutput, hf, normalizeValue]
    rw [if_neg (by decide), if_neg (by decide), if_neg (by decide),
      if_neg (by decide), if_pos (by decide)]
  rw [hrows]
  refine ⟨?_, ?_, ?_⟩
  · intro r hr
    obtain ⟨e, he, heq⟩ := List.mem_filterMap.mp hr
    have heq2 : (if skipClass (classNameOf (resolveLabel mapping e.1))
        then none
        else some (Row.mk (nameF L) "Number of Patches" "Patch Count"
          (RowVal.int (pyInt e.2)) "patches" (some e.1)
          (some (classNameOf (resolveLabel mapping e.1))))) = some r := heq
    by_cases hskip : skipClass (classNameOf (resolveLabel mapping e.1)) = true
    · rw [if_pos hskip] at heq2
      exact absurd heq2 (by simp)
    · rw [Bool.not_eq_true] at hskip
      rw [if_neg (by simp [hskip])] at heq2
      refine ⟨classNameOf (resolveLabel mapping e.1), ?_, hskip⟩
      rw [← Option.some_injective _ heq2]
  · intro hskip r hr hid
    obtain ⟨e, he, heq⟩ := List.mem_filterMap.mp hr
    have heq2 : (if skipClass (classNameOf (resolveLabel mapping e.1))
        then none
        else some (Row.mk (nameF L) "Number of Patches" "Patch Count"
          (RowVal.int (pyInt e.2)) "patches" (some e.1)
          (some (classNameOf (resolveLabel mapping e.1))))) = some r := heq
    by_cases hskip2 : skipClass (classNameOf (resolveLabel mapping e.1)) = true
    · rw [if_pos hskip2] at heq2
      exact absurd heq2 (by simp)
    · rw [if_neg hskip2] at heq2
      have hrcls : r.classId = some e.1 := by
        rw [← Option.some_injective _ heq2]
      rw [hid] at hrcls
      have hecls : e.1 = cls := (Option.some_injective _ hrcls.symm)
      rw [hecls] at hskip2
      exact hskip2 hskip
  · intro lbl hlbl hkeep hin
    refine List.mem_filterMap.mpr ⟨(cls, n), hin, ?_⟩
    have hres : resolveLabel mapping cls = lbl := by
      rw [resolveLabel, hlbl]
      rfl
    show (if skipClass (classNameOf (resolveLabel mapping cls))
        then none
        else some (Row.mk (nameF L) "Number of Patches" "Patch Count"
          (RowVal.int (pyInt n)) "patches" (some cls)
          (some (classNameOf (resolveLabel mapping cls))))) =
      some (Row.mk (nameF L) "Number of Patches" "Patch Count"
        (RowVal.int (pyInt n)) "patches" (some cls) (some (classNameOf lbl)))
    rw [hres, if_neg (by simp [hkeep])]

/-- Witness for C9's amended statement: a class with a proper label
emits its row with the prefix stripped. -/
theorem class_label_fallback_amended_witness :
    Row.mk "Layer1" "Number of Patches" "Patch Count" (RowVal.int (pyInt 3))
      "patches" (some 7) (some (classNameOf "7 - Forest")) ∈
      (runWorker ["Layer1"] (fun s => s)
        [(fun _ => Except.ok (MetricValue.classMap [(1, 2), (7, 3)]),
          "Number of Patches")]
        (fun _ => [(7, "7 - Forest")]) []).1 :=
  (class_label_fallback_amended "Layer1" (fun s => s)
    (fun _ => Except.ok (MetricValue.classMap [(1, 2), (7, 3)]))
    [(1, 2), (7, 3)] [(7, "7 - Forest")] [] 7 3 rfl).2.2
    "7 - Forest" rfl (by decide)
    (List.mem_cons_of_mem _ (List.mem_cons_self _ _))

end TiszaMetrics
